import Mathlib

/-!
# csb6/markdown — scanner and emitter of `src/main.cpp`

A shallow embedding of `Scanner::nextToken` and of the token loop and stack
drain of `main`, followed by theorems about them.

Modelling conventions.

* The command line check of `main` and the constructor of `Scanner` (file
  name suffix, failure to open) are outside the model: `main` below starts
  from the opened file.
* The input file is the list of its bytes, each written as the `Char` with
  that code: the byte 0xFF is the character `'\xff'`.  `m_file.get()` and
  `m_file.peek()` return `Option Char`, where `none` is the end-of-input
  value `EOF` of type `int`.
* The source stores the result of `get` in a `char` (`char currChar =
  m_file.get()`, `currChar = m_file.get()`) and then tests `currChar == EOF`.
  `char` is signed, so this conversion takes both `EOF` and the byte 0xFF to
  the `char` -1, the one value for which `currChar == EOF` holds.  The
  function `toChar` is this conversion; in the variable `currChar` the value
  `none` stands for the `char` -1.  The results of `peek` are compared as
  `int` and are not converted.
* `std::ifstream` is modelled by its unread characters and its `eofbit` and
  `failbit` (`badbit` is never set on the paths modelled), with the standard
  behaviour of the unformatted input functions: each of them first checks
  `good()` and sets `failbit` when it is false; `get` at the end of the file
  sets `eofbit` and `failbit`, `peek` and `ignore` at the end set `eofbit`;
  `putback` first clears `eofbit`.
* `std::string` is `List Char`; `std::stack<State>` is a `List State` whose
  head is the top.
* `std::cout` is the list of fragments written so far (each `<<` of a tag
  constant or of a token text is one fragment); `render` gives the characters.
* Loops carry a fuel argument and return `none` when it runs out; the
  theorems show that the fuel supplied by `nextToken` and `main` always
  suffices.
-/

namespace Markdown

/-- The `enum class State` of the source. -/
inductive State where
  | Start | Bold | Italic | Heading | Bad | EoF | Text | Paragraph | Newline
  | UnorderedList | OrderedList
  deriving DecidableEq, Repr

/-! ## The input stream -/

/-- The part of `std::ifstream` the scanner uses. -/
structure IFStream where
  buf : List Char
  eofbit : Bool
  failbit : Bool
  deriving DecidableEq, Repr

namespace IFStream

/-- A freshly opened file holding the characters `s`. -/
def ofList (s : List Char) : IFStream := ⟨s, false, false⟩

/-- Stream function `good()`: no state bit is set. -/
def good (f : IFStream) : Bool := !f.eofbit && !f.failbit

/-- Stream function `fail()`. -/
def fail (f : IFStream) : Bool := f.failbit

/-- Stream function `get()`: extracts one character. -/
def get (f : IFStream) : Option Char × IFStream :=
  if f.good then
    match f.buf with
    | [] => (none, ⟨[], true, true⟩)
    | c :: cs => (some c, ⟨cs, f.eofbit, f.failbit⟩)
  else (none, ⟨f.buf, f.eofbit, true⟩)

/-- Stream function `peek()`: reads the next character without extracting it. -/
def peek (f : IFStream) : Option Char × IFStream :=
  if f.good then
    match f.buf with
    | [] => (none, ⟨[], true, f.failbit⟩)
    | c :: _ => (some c, f)
  else (none, ⟨f.buf, f.eofbit, true⟩)

/-- Stream function `ignore()`: extracts and discards one character. -/
def ignore (f : IFStream) : IFStream :=
  if f.good then
    match f.buf with
    | [] => ⟨[], true, f.failbit⟩
    | _ :: cs => ⟨cs, f.eofbit, f.failbit⟩
  else ⟨f.buf, f.eofbit, true⟩

/-- Stream function `putback(c)`: clears `eofbit`, then makes `c` the next
character to be extracted. -/
def putback (f : IFStream) (c : Char) : IFStream :=
  if !f.failbit then ⟨c :: f.buf, false, false⟩ else ⟨f.buf, false, true⟩

end IFStream

/-! ## The scanner -/

/-- Diagnostic written by the `Heading` case at end of input. -/
def HeadingError : List Char := "Error: premature end to Heading element\n".toList

/-- Diagnostic written by the list case at end of input. -/
def ListError : List Char := "Error: premature end to list tag\n".toList

/-- The local variables of `Scanner::nextToken`, the file it reads and what
it has written to `std::cerr`. -/
structure Scan where
  done : Bool
  currChar : Option Char
  currState : State
  tokenText : List Char
  m_file : IFStream
  cerr : List Char
  deriving DecidableEq, Repr

/-- The conversion of the `int` returned by `get` to the `char` stored in
`currChar`: `EOF` and the byte 0xFF both become the `char` -1 (written
`none`), every other byte keeps its value. -/
def toChar : Option Char → Option Char
  | none => none
  | some c => if c = '\xff' then none else some c

/-- `std::isdigit(currChar)`. -/
def isdigit : Option Char → Bool
  | some c => c.isDigit
  | none => false

/-- The condition `a && p(m_file.peek())`: the stream is peeked only when `a`
holds. -/
def andPeek (a : Bool) (f : IFStream) (p : Option Char → Bool) : Bool × IFStream :=
  if a then (p f.peek.1, f.peek.2) else (false, f)

/-- The `case State::Start` of the switch; `c` is `currChar`, and `c = none`
is the test `currChar == EOF`. -/
def caseStart (c : Option Char) (text : List Char) (f : IFStream) (err : List Char) : Scan :=
  if c = some '#' then ⟨false, c, State.Heading, text, f, err⟩
  else if c = some '-' then ⟨false, c, State.UnorderedList, text, f, err⟩
  else
    let d := andPeek (isdigit c) f (fun x => x == some '.')
    if d.1 then ⟨false, c, State.OrderedList, text, d.2.ignore, err⟩
    else
      let n := andPeek (c == some '\n') d.2 (fun x => x == some '\n')
      if n.1 then ⟨true, c, State.Newline, text, n.2.ignore, err⟩
      else
        let i := andPeek (c == some '*') n.2 (fun x => x != some '*')
        if i.1 then ⟨true, c, State.Italic, text, i.2, err⟩
        else if c = some '*' then ⟨true, c, State.Bold, text, i.2.ignore, err⟩
        else
          match c with
          | none => ⟨true, c, State.EoF, text, i.2, err⟩
          | some ch => ⟨false, c, State.Text, text ++ [ch], i.2, err⟩

/-- The `case State::Heading` of the switch; `c = none` is the test
`currChar == EOF`. -/
def caseHeading (c : Option Char) (text : List Char) (f : IFStream) (err : List Char) : Scan :=
  let n := andPeek (c == some '\n') f (fun x => x == some '\n')
  if n.1 then ⟨true, c, State.Heading, text, n.2.putback '\n', err⟩
  else
    match c with
    | none => ⟨true, c, State.Bad, text, n.2, err ++ HeadingError⟩
    | some ch => ⟨false, c, State.Heading, text ++ [ch], n.2, err⟩

/-- The shared `case State::OrderedList: case State::UnorderedList` of the
switch; `st` is the one of the two states the scanner is in, and `c = none`
is the test `currChar == EOF`. -/
def caseList (st : State) (c : Option Char) (text : List Char) (f : IFStream)
    (err : List Char) : Scan :=
  let n := andPeek (c == some '\n') f (fun x => x == some '\n')
  if n.1 then ⟨true, c, st, text, n.2.putback '\n', err⟩
  else if c = some '\n' then ⟨true, c, st, text, n.2, err⟩
  else
    match c with
    | none => ⟨true, c, State.Bad, text, n.2, err ++ ListError⟩
    | some ch => ⟨false, c, st, text ++ [ch], n.2, err⟩

/-- The `case State::Text` of the switch; `c = none` is the test
`currChar == EOF`. -/
def caseText (c : Option Char) (text : List Char) (f : IFStream) (err : List Char) : Scan :=
  let n := andPeek (c == some '\n') f (fun x => x == some '\n')
  if n.1 then ⟨true, c, State.Text, text, n.2.putback '\n', err⟩
  else if c = some '\n' then ⟨true, c, State.Text, text ++ ['\n'], n.2, err⟩
  else
    match c with
    | none => ⟨true, c, State.Text, text, n.2, err⟩
    | some ch =>
      if ch = '*' then ⟨true, c, State.Text, text, n.2.putback '*', err⟩
      else ⟨false, c, State.Text, text ++ [ch], n.2, err⟩

/-- The `switch(currState)` statement of the scanning loop. -/
def switchBody (s : Scan) : Scan :=
  match s.currState with
  | State.Start => caseStart s.currChar s.tokenText s.m_file s.cerr
  | State.Heading => caseHeading s.currChar s.tokenText s.m_file s.cerr
  | State.OrderedList => caseList State.OrderedList s.currChar s.tokenText s.m_file s.cerr
  | State.UnorderedList => caseList State.UnorderedList s.currChar s.tokenText s.m_file s.cerr
  | State.Text => caseText s.currChar s.tokenText s.m_file s.cerr
  | _ => ⟨true, s.currChar, State.Bad, s.tokenText, s.m_file, s.cerr⟩

/-- One pass through the body of `while(!done)`: the switch, then
`if(!done) currChar = m_file.get()`. -/
def loopBody (s : Scan) : Scan :=
  let s1 := switchBody s
  if s1.done then s1
  else ⟨false, toChar s1.m_file.get.1, s1.currState, s1.tokenText, s1.m_file.get.2, s1.cerr⟩

/-- The loop `while(!done)` of `nextToken`, with fuel. -/
def whileNotDone : Nat → Scan → Option Scan
  | 0, _ => none
  | fuel + 1, s => if s.done then some s else whileNotDone fuel (loopBody s)

/-- The states that have a `case` label of their own in the switch; every
other state is handled by `default`. -/
def State.hasCase : State → Bool
  | State.Start | State.Heading | State.OrderedList | State.UnorderedList | State.Text => true
  | _ => false

/-- The values of `currState` on which the switch is executed, pass by pass,
in the loop `while(!done)`. -/
def switchStates : Nat → Scan → List State
  | 0, _ => []
  | fuel + 1, s => if s.done then [] else s.currState :: switchStates fuel (loopBody s)

/-- What a call of `nextToken` returns and leaves behind: the pair
`(currState, tokenText)`, the file, and the diagnostics it wrote. -/
structure Token where
  state : State
  tokenText : List Char
  m_file : IFStream
  cerr : List Char
  deriving DecidableEq, Repr

/-- The statement `return {currState, tokenText}`, with the file and the
diagnostics left behind. -/
def Scan.result (s : Scan) : Token := ⟨s.currState, s.tokenText, s.m_file, s.cerr⟩

/-- The state of `nextToken` when its loop is entered on the file `f`:
`char currChar = m_file.get()`, `currState = State::Start`, empty
`tokenText`. -/
def Scan.init (f : IFStream) : Scan :=
  ⟨false, toChar f.get.1, State.Start, [], f.get.2, []⟩

/-- The function `Scanner::nextToken` with explicit fuel for its loop. -/
def nextTokenFuel (fuel : Nat) (f : IFStream) : Option Token :=
  (whileNotDone fuel (Scan.init f)).map Scan.result

/-- The function `Scanner::nextToken`; the loop passes through its body at
most once per unread byte and once for the end of the file. -/
def nextToken (f : IFStream) : Option Token :=
  nextTokenFuel (f.buf.length + 2) f

/-! ## The emitter -/

/-- One write to `std::cout`: one of the tag constants of the source, or a
token text. -/
inductive Frag where
  | StrongOpen | StrongClose | ItalicOpen | ItalicClose
  | H1Open | H1Close | ParagraphOpen | ParagraphClose
  | LiOpen | LiClose | UlOpen | UlClose | OlOpen | OlClose
  | HTMLBeforeBody | HTMLAfterBody
  | text (s : List Char)
  deriving DecidableEq, Repr

/-- The characters of a fragment: the values of the `constexpr char[]`
constants of the source. -/
def Frag.chars : Frag → List Char
  | Frag.StrongOpen => "<strong>".toList
  | Frag.StrongClose => "</strong>".toList
  | Frag.ItalicOpen => "<em>".toList
  | Frag.ItalicClose => "</em>".toList
  | Frag.H1Open => "<h1>".toList
  | Frag.H1Close => "</h1>\n".toList
  | Frag.ParagraphOpen => "<p>\n".toList
  | Frag.ParagraphClose => "\n</p>\n".toList
  | Frag.LiOpen => "<li>".toList
  | Frag.LiClose => "</li>\n".toList
  | Frag.UlOpen => "<ul>\n".toList
  | Frag.UlClose => "</ul>\n".toList
  | Frag.OlOpen => "<ol>\n".toList
  | Frag.OlClose => "</ol>\n".toList
  | Frag.HTMLBeforeBody => "<html>\n<body>\n".toList
  | Frag.HTMLAfterBody => "</body>\n</html>\n".toList
  | Frag.text s => s

/-- The characters written to `std::cout` by a sequence of writes. -/
def render (out : List Frag) : List Char := (out.map Frag.chars).flatten

/-- The state of `main`: the scanner's file, the stack of open elements (top
first), and what has been written to `std::cout` and `std::cerr`. -/
structure Conv where
  m_file : IFStream
  stack : List State
  cout : List Frag
  cerr : List Char
  deriving DecidableEq, Repr

/-- The prefix of the diagnostic `main` writes for a `Bad` token. -/
def BadTokenError : List Char := "Error: Bad token: ".toList

/-- The body of the token loop of `main` after the call of `nextToken`: the
chain of `if`/`else if` on the token `(state, tokenText)`.  Returns the new
stack and the writes to `std::cout` and to `std::cerr`. -/
def emit (state : State) (tokenText : List Char) (stack : List State) :
    List State × List Frag × List Char :=
  if state = State.Bold ∨ state = State.Italic then
    if stack.isEmpty ∨ stack.head? ≠ some state then
      (state :: stack,
        [if state = State.Bold then Frag.StrongOpen else Frag.ItalicOpen], [])
    else if !stack.isEmpty then
      (stack.tail,
        [if state = State.Bold then Frag.StrongClose else Frag.ItalicClose], [])
    else (stack, [], [])
  else if state = State.Heading then
    (stack, [Frag.H1Open, Frag.text tokenText, Frag.H1Close], [])
  else if state = State.UnorderedList then
    if stack.isEmpty ∨ stack.head? ≠ some State.UnorderedList then
      (state :: stack, [Frag.UlOpen, Frag.LiOpen, Frag.text tokenText, Frag.LiClose], [])
    else (stack, [Frag.LiOpen, Frag.text tokenText, Frag.LiClose], [])
  else if state = State.OrderedList then
    if stack.isEmpty ∨ stack.head? ≠ some State.OrderedList then
      (state :: stack, [Frag.OlOpen, Frag.LiOpen, Frag.text tokenText, Frag.LiClose], [])
    else (stack, [Frag.LiOpen, Frag.text tokenText, Frag.LiClose], [])
  else if state = State.Newline ∧ !stack.isEmpty then
    (stack.tail,
      if stack.head? = some State.Paragraph then [Frag.ParagraphClose]
      else if stack.head? = some State.UnorderedList then [Frag.UlClose]
      else if stack.head? = some State.OrderedList then [Frag.OlClose]
      else [],
      [])
  else if state = State.Text then
    if stack.isEmpty then (State.Paragraph :: stack, [Frag.ParagraphOpen, Frag.text tokenText], [])
    else (stack, [Frag.text tokenText], [])
  else if state = State.Bad then
    (stack, [], BadTokenError ++ tokenText ++ ['\n'])
  else (stack, [], [])

/-- One pass through the body of `while(scanner.hasNext())`: a call of
`nextToken`, then the transition on the token it returned. -/
def tokenStep (c : Conv) : Option Conv :=
  (nextToken c.m_file).map fun t =>
    let e := emit t.state t.tokenText c.stack
    ⟨t.m_file, e.1, c.cout ++ e.2.1, c.cerr ++ t.cerr ++ e.2.2⟩

/-- The loop `while(scanner.hasNext())` of `main`, with fuel. -/
def tokenLoop : Nat → Conv → Option Conv
  | 0, _ => none
  | fuel + 1, c =>
    if c.m_file.fail then some c
    else (tokenStep c).bind (tokenLoop fuel)

/-- The final loop `while(!stack.empty())` of `main`: the closing tags
written while the stack is popped, top first. -/
def drain : List State → List Frag
  | [] => []
  | curr :: stack =>
    (if curr = State.Paragraph then [Frag.ParagraphClose]
     else if curr = State.UnorderedList then [Frag.UlClose]
     else if curr = State.OrderedList then [Frag.OlClose]
     else []) ++ drain stack

/-- The state of `main` when the token loop is entered on the file `f`:
empty stack, the prologue written. -/
def Conv.init (f : IFStream) : Conv := ⟨f, [], [Frag.HTMLBeforeBody], []⟩

/-- The function `main` from the construction of the stack on, run on the
opened file `f` with the given fuel for the token loop: the final state
after the token loop, the drain of the stack and the epilogue. -/
def mainFuel (fuel : Nat) (f : IFStream) : Option Conv :=
  (tokenLoop fuel (Conv.init f)).map fun c =>
    ⟨c.m_file, [], c.cout ++ drain c.stack ++ [Frag.HTMLAfterBody], c.cerr⟩

/-- The function `main` on a file holding the characters `input`; every
pass of the token loop consumes a character or reaches the end of the file. -/
def main (input : List Char) : Option Conv :=
  mainFuel (input.length + 2) (IFStream.ofList input)

/-- The HTML document `main` writes to `std::cout` for `input`. -/
def html (input : List Char) : Option (List Char) :=
  (main input).map fun c => render c.cout

/-- The tokens `(state, tokenText)` returned by the successive calls of
`nextToken` in the token loop of `main`, in order. -/
def tokensFuel : Nat → IFStream → Option (List (State × List Char))
  | 0, _ => none
  | fuel + 1, f =>
    if f.fail then some []
    else (nextToken f).bind fun t =>
      (tokensFuel fuel t.m_file).map fun ts => (t.state, t.tokenText) :: ts

/-- The token sequence of a document. -/
def tokens (input : List Char) : Option (List (State × List Char)) :=
  tokensFuel (input.length + 2) (IFStream.ofList input)

/-- The result of the token loop of `main` on a file holding `input`, before
the stack is drained. -/
def afterTokens (input : List Char) : Option Conv :=
  tokenLoop (input.length + 2) (Conv.init (IFStream.ofList input))

/-- The transitions of the emitter on a sequence of tokens, from the stack
`stack`: the final stack and the writes to `std::cout`. -/
def emitAll (stack : List State) : List (State × List Char) → List State × List Frag
  | [] => (stack, [])
  | t :: ts =>
    ((emitAll (emit t.1 t.2 stack).1 ts).1,
      (emit t.1 t.2 stack).2.1 ++ (emitAll (emit t.1 t.2 stack).1 ts).2)

/-! ## Closed forms of the scanner's loop

The functions below describe, by recursion on the unread characters, what
the loop of `nextToken` computes in each of its states.  They are proved
equal to the loop (`nextToken_ofList`), and the theorems about documents
are derived from them. -/

/-- The file after the end has been seen by `peek`: `eofbit` is set. -/
def IFStream.atEnd : IFStream := ⟨[], true, false⟩

/-- The file after a `get` at the end: `eofbit` and `failbit` are set. -/
def IFStream.failed : IFStream := ⟨[], true, true⟩

/-- Closed form of the `Heading` state: `text` has been accumulated, the
bytes of the second argument are unread (the first of them is the next
`currChar`).  The byte 0xFF is taken for the end of the file. -/
def scanHeading (err : List Char) : List Char → List Char → Token
  | text, [] => ⟨State.Bad, text, IFStream.failed, err ++ HeadingError⟩
  | text, c :: r =>
    if c = '\n' ∧ r.head? = some '\n' then ⟨State.Heading, text, IFStream.ofList (c :: r), err⟩
    else if c = '\xff' then ⟨State.Bad, text, IFStream.ofList r, err ++ HeadingError⟩
    else scanHeading err (text ++ [c]) r

/-- Closed form of the list states. -/
def scanList (st : State) (err : List Char) : List Char → List Char → Token
  | text, [] => ⟨State.Bad, text, IFStream.failed, err ++ ListError⟩
  | text, c :: r =>
    if c = '\n' then
      if r.head? = some '\n' then ⟨st, text, IFStream.ofList (c :: r), err⟩
      else ⟨st, text, (IFStream.ofList r).peek.2, err⟩
    else if c = '\xff' then ⟨State.Bad, text, IFStream.ofList r, err ++ ListError⟩
    else scanList st err (text ++ [c]) r

/-- Closed form of the `Text` state. -/
def scanText (err : List Char) : List Char → List Char → Token
  | text, [] => ⟨State.Text, text, IFStream.failed, err⟩
  | text, c :: r =>
    if c = '\n' then
      if r.head? = some '\n' then ⟨State.Text, text, IFStream.ofList (c :: r), err⟩
      else ⟨State.Text, text ++ ['\n'], (IFStream.ofList r).peek.2, err⟩
    else if c = '\xff' then ⟨State.Text, text, IFStream.ofList r, err⟩
    else if c = '*' then ⟨State.Text, text, IFStream.ofList (c :: r), err⟩
    else scanText err (text ++ [c]) r

/-- Closed form of `nextToken` on a freshly positioned file with the unread
characters given. -/
def scanStart : List Char → Token
  | [] => ⟨State.EoF, [], IFStream.failed, []⟩
  | c :: r =>
    if c = '#' then scanHeading [] [] r
    else if c = '-' then scanList State.UnorderedList [] [] r
    else if c.isDigit ∧ r.head? = some '.' then scanList State.OrderedList [] [] r.tail
    else if c = '\n' ∧ r.head? = some '\n' then ⟨State.Newline, [], IFStream.ofList r.tail, []⟩
    else if c = '*' then
      if r.head? = some '*' then ⟨State.Bold, [], IFStream.ofList r.tail, []⟩
      else ⟨State.Italic, [], (IFStream.ofList r).peek.2, []⟩
    else if c = '\xff' then ⟨State.EoF, [], IFStream.ofList r, []⟩
    else scanText [] [c] r

/-- The text a token sequence stands for: the payload of each `Text` token,
two newlines for each `Newline` (blank line) token, nothing for the others. -/
def restore : List (State × List Char) → List Char
  | [] => []
  | t :: ts =>
    (if t.1 = State.Text then t.2
     else if t.1 = State.Newline then ['\n', '\n'] else []) ++ restore ts

/-! ## Predicates and shapes used in the statements -/

/-- The states a file can be left in by a call on the unread characters `r`:
it is a fresh file on a suffix of `r`, or the end has been seen. -/
def LeftOf (r : List Char) (f : IFStream) : Prop :=
  (f = IFStream.failed ∨ f = IFStream.atEnd ∨ f = IFStream.ofList f.buf) ∧ f.buf <:+ r

/-- A document without `*`, `#`, `-`, without a digit followed by `.`, and
without the byte 0xFF. -/
def Plain (s : List Char) : Prop :=
  '*' ∉ s ∧ '#' ∉ s ∧ '-' ∉ s ∧ (∀ d : Char, d.isDigit = true → ¬ [d, '.'] <:+: s) ∧
    '\xff' ∉ s

/-- A text `t` that can open a `Text` token: it is not empty, holds no
newline, no `*` and no byte 0xFF, and does not begin with `#`, `-` or a
digit followed by `.`. -/
def TextRun (t : List Char) : Prop :=
  t ≠ [] ∧ '*' ∉ t ∧ '\n' ∉ t ∧ t.head? ≠ some '#' ∧ t.head? ≠ some '-' ∧
    (∀ d : Char, d.isDigit = true → ¬ [d, '.'] <+: t) ∧ '\xff' ∉ t

/-- The lines `- t` of an unordered list, one per item text. -/
def listLines (items : List (List Char)) : List Char :=
  (items.map fun t => "- ".toList ++ t ++ "\n".toList).flatten

/-- The writes for one list item. -/
def liFrags (t : List Char) : List Frag := [Frag.LiOpen, Frag.text t, Frag.LiClose]

/-- The premature-end condition of the claim: the document begins with `#`
and no blank line follows, or it begins with `-` or with a digit and `.` and
no newline follows the marker. -/
def PrematureEnd (s : List Char) : Prop :=
  (∃ r, s = '#' :: r ∧ ¬ ['\n', '\n'] <:+: r) ∨
  (∃ r, s = '-' :: r ∧ '\n' ∉ r) ∨
  (∃ d r, d.isDigit = true ∧ s = d :: '.' :: r ∧ '\n' ∉ r)

/-- No entry of the stack lies directly on an entry of its own kind. -/
def NoRepeat (stack : List State) : Prop := List.Chain' (fun a b => a ≠ b) stack

/-! ## Block tags as brackets -/

/-- The block element whose opening tag a write is, if any. -/
def Frag.opens : Frag → Option State
  | Frag.ParagraphOpen => some State.Paragraph
  | Frag.UlOpen => some State.UnorderedList
  | Frag.OlOpen => some State.OrderedList
  | _ => none

/-- The block element whose closing tag a write is, if any. -/
def Frag.closes : Frag → Option State
  | Frag.ParagraphClose => some State.Paragraph
  | Frag.UlClose => some State.UnorderedList
  | Frag.OlClose => some State.OrderedList
  | _ => none

/-- Reads a sequence of writes as brackets: `pending` lists the block
elements open so far, innermost first.  An opening tag adds its element; a
closing tag must close the innermost open element and removes it; every
other write is skipped.  Returns the elements open at the end, or `none` when
a closing tag does not match. -/
def nest : List State → List Frag → Option (List State)
  | pending, [] => some pending
  | pending, f :: fs =>
    match f.opens with
    | some k => nest (k :: pending) fs
    | none =>
      match f.closes with
      | some k => if pending.head? = some k then nest pending.tail fs else none
      | none => nest pending fs

/-- The block entries of the stack, top first. -/
def blocks (stack : List State) : List State :=
  stack.filter fun k => k = State.Paragraph ∨ k = State.UnorderedList ∨ k = State.OrderedList


/-! ## Theorems -/

section StreamLemmas
open IFStream

@[simp]
theorem get_ofList_nil : (ofList []).get = (none, failed) := rfl
@[simp]
theorem get_ofList_cons (c : Char) (r : List Char) :
    (ofList (c :: r)).get = (some c, ofList r) := rfl
@[simp]
theorem get_atEnd : atEnd.get = (none, failed) := rfl
@[simp]
theorem get_failed : failed.get = (none, failed) := rfl
@[simp]
theorem peek_ofList_nil : (ofList []).peek = (none, atEnd) := rfl
@[simp]
theorem peek_ofList_cons (c : Char) (r : List Char) :
    (ofList (c :: r)).peek = (some c, ofList (c :: r)) := rfl
@[simp]
theorem ignore_ofList_cons (c : Char) (r : List Char) :
    (ofList (c :: r)).ignore = ofList r := rfl
@[simp]
theorem fail_ofList (r : List Char) : (ofList r).fail = false := rfl
@[simp]
theorem putback_ofList (c : Char) (r : List Char) :
    (ofList r).putback c = ofList (c :: r) := rfl

/-- After a `peek`, `get` behaves as before it. -/
theorem get_peek_ofList (r : List Char) : (ofList r).peek.2.get = (ofList r).get := by
  cases r <;> rfl

end StreamLemmas

theorem whileNotDone_done (fuel : Nat) (s : Scan) (h : s.done = true) :
    whileNotDone (fuel + 1) s = some s := by
  simp [whileNotDone, h]

theorem whileNotDone_step (fuel : Nat) (s : Scan) (h : s.done = false) :
    whileNotDone (fuel + 1) s = whileNotDone fuel (loopBody s) := by
  simp [whileNotDone, h]

@[simp]
theorem toChar_none : toChar none = none := rfl

@[simp]
theorem toChar_ff : toChar (some '\xff') = none := rfl

theorem toChar_some {c : Char} (h : c ≠ '\xff') : toChar (some c) = some c := by
  simp [toChar, h]

/-- The loop in the `Heading` state computes `scanHeading`. -/
theorem whileNotDone_heading (err : List Char) (r : List Char) :
    ∀ (text : List Char) (fuel : Nat), r.length + 2 ≤ fuel →
      (whileNotDone fuel ⟨false, toChar (IFStream.ofList r).get.1, State.Heading, text,
        (IFStream.ofList r).get.2, err⟩).map Scan.result = some (scanHeading err text r) := by
  induction r with
  | nil =>
    intro text fuel h
    obtain ⟨k, rfl⟩ : ∃ k, fuel = k + 2 := ⟨fuel - 2, by omega⟩
    simp [whileNotDone, loopBody, switchBody, caseHeading, andPeek, scanHeading, Scan.result]
  | cons c r ih =>
    intro text fuel h
    obtain ⟨k, rfl⟩ : ∃ k, fuel = k + 2 := ⟨fuel - 2, by simp at h; omega⟩
    have hk : r.length + 2 ≤ k + 1 := by simp at h; omega
    rw [whileNotDone_step _ _ rfl]
    by_cases hff : c = '\xff'
    · subst hff
      simp [whileNotDone, loopBody, switchBody, caseHeading, andPeek, scanHeading, Scan.result]
    rw [get_ofList_cons]
    simp only [toChar_some hff]
    by_cases hc : c = '\n'
    · subst hc
      cases r with
      | nil =>
        have := ih (text ++ ['\n']) (k + 1) hk
        simpa [loopBody, switchBody, caseHeading, andPeek, scanHeading] using this
      | cons d r' =>
        by_cases hd : d = '\n'
        · subst hd
          simp [whileNotDone, loopBody, switchBody, caseHeading, andPeek, scanHeading, Scan.result]
        · have := ih (text ++ ['\n']) (k + 1) hk
          simpa [loopBody, switchBody, caseHeading, andPeek, scanHeading, hd] using this
    · have := ih (text ++ [c]) (k + 1) hk
      simpa [loopBody, switchBody, caseHeading, andPeek, scanHeading, hc, hff] using this

/-- The loop in a list state computes `scanList`. -/
theorem whileNotDone_list (st : State) (hst : st = State.UnorderedList ∨ st = State.OrderedList)
    (err : List Char) (r : List Char) :
    ∀ (text : List Char) (fuel : Nat), r.length + 2 ≤ fuel →
      (whileNotDone fuel ⟨false, toChar (IFStream.ofList r).get.1, st, text,
        (IFStream.ofList r).get.2, err⟩).map Scan.result = some (scanList st err text r) := by
  induction r with
  | nil =>
    intro text fuel h
    obtain ⟨k, rfl⟩ : ∃ k, fuel = k + 2 := ⟨fuel - 2, by omega⟩
    rcases hst with rfl | rfl <;>
      simp [whileNotDone, loopBody, switchBody, caseList, andPeek, scanList, Scan.result]
  | cons c r ih =>
    intro text fuel h
    obtain ⟨k, rfl⟩ : ∃ k, fuel = k + 2 := ⟨fuel - 2, by simp at h; omega⟩
    have hk : r.length + 2 ≤ k + 1 := by simp at h; omega
    rw [whileNotDone_step _ _ rfl]
    by_cases hff : c = '\xff'
    · subst hff
      rcases hst with rfl | rfl <;>
        simp [whileNotDone, loopBody, switchBody, caseList, andPeek, scanList, Scan.result]
    rw [get_ofList_cons]
    simp only [toChar_some hff]
    by_cases hc : c = '\n'
    · subst hc
      cases r with
      | nil =>
        rcases hst with rfl | rfl <;>
          simp [whileNotDone, loopBody, switchBody, caseList, andPeek, scanList, Scan.result]
      | cons d r' =>
        by_cases hd : d = '\n'
        · subst hd
          rcases hst with rfl | rfl <;>
            simp [whileNotDone, loopBody, switchBody, caseList, andPeek, scanList, Scan.result]
        · rcases hst with rfl | rfl <;>
            simp [whileNotDone, loopBody, switchBody, caseList, andPeek, scanList, Scan.result, hd]
    · have := ih (text ++ [c]) (k + 1) hk
      rcases hst with rfl | rfl <;>
        simpa [loopBody, switchBody, caseList, andPeek, scanList, hc, hff] using this

/-- The loop in the `Text` state computes `scanText`. -/
theorem whileNotDone_text (err : List Char) (r : List Char) :
    ∀ (text : List Char) (fuel : Nat), r.length + 2 ≤ fuel →
      (whileNotDone fuel ⟨false, toChar (IFStream.ofList r).get.1, State.Text, text,
        (IFStream.ofList r).get.2, err⟩).map Scan.result = some (scanText err text r) := by
  induction r with
  | nil =>
    intro text fuel h
    obtain ⟨k, rfl⟩ : ∃ k, fuel = k + 2 := ⟨fuel - 2, by omega⟩
    simp [whileNotDone, loopBody, switchBody, caseText, andPeek, scanText, Scan.result]
  | cons c r ih =>
    intro text fuel h
    obtain ⟨k, rfl⟩ : ∃ k, fuel = k + 2 := ⟨fuel - 2, by simp at h; omega⟩
    have hk : r.length + 2 ≤ k + 1 := by simp at h; omega
    rw [whileNotDone_step _ _ rfl]
    by_cases hff : c = '\xff'
    · subst hff
      simp [whileNotDone, loopBody, switchBody, caseText, andPeek, scanText, Scan.result]
    rw [get_ofList_cons]
    simp only [toChar_some hff]
    by_cases hc : c = '\n'
    · subst hc
      cases r with
      | nil =>
        simp [whileNotDone, loopBody, switchBody, caseText, andPeek, scanText, Scan.result]
      | cons d r' =>
        by_cases hd : d = '\n'
        · subst hd
          simp [whileNotDone, loopBody, switchBody, caseText, andPeek, scanText, Scan.result]
        · simp [whileNotDone, loopBody, switchBody, caseText, andPeek, scanText, Scan.result, hd]
    · by_cases hs : c = '*'
      · subst hs
        simp [whileNotDone, loopBody, switchBody, caseText, andPeek, scanText, Scan.result]
      · have := ih (text ++ [c]) (k + 1) hk
        simpa [loopBody, switchBody, caseText, andPeek, scanText, hc, hs, hff] using this

/-- On a freshly positioned file `nextToken` computes `scanStart`: in
particular its loop never runs out of fuel. -/
theorem nextToken_ofList (s : List Char) :
    nextToken (IFStream.ofList s) = some (scanStart s) := by
  cases s with
  | nil => rfl
  | cons c r =>
    unfold nextToken nextTokenFuel
    have hfuel : (IFStream.ofList (c :: r)).buf.length + 2 = r.length + 3 := rfl
    rw [hfuel, Scan.init, get_ofList_cons, whileNotDone_step _ _ rfl]
    by_cases hff : c = '\xff'
    · subst hff
      simp [whileNotDone, loopBody, switchBody, caseStart, scanStart, andPeek, isdigit,
        Scan.result]
    simp only [toChar_some hff]
    by_cases h1 : c = '#'
    · subst h1
      have := whileNotDone_heading [] r [] (r.length + 2) le_rfl
      simpa [loopBody, switchBody, caseStart, scanStart] using this
    by_cases h2 : c = '-'
    · subst h2
      have := whileNotDone_list State.UnorderedList (Or.inl rfl) [] r [] (r.length + 2) le_rfl
      simpa [loopBody, switchBody, caseStart, scanStart, h1] using this
    have hget : ∀ r : List Char, (IFStream.ofList r).peek.2.get = (IFStream.ofList r).get :=
      get_peek_ofList
    by_cases h3 : c.isDigit = true ∧ r.head? = some '.'
    · obtain ⟨h3a, h3b⟩ := h3
      cases r with
      | nil => simp at h3b
      | cons d r' =>
        simp at h3b
        subst h3b
        have := whileNotDone_list State.OrderedList (Or.inr rfl) [] r' [] (r'.length + 3)
          (by omega)
        simpa [loopBody, switchBody, caseStart, scanStart, h1, h2, h3a, andPeek, isdigit]
          using this
    by_cases h4 : c = '\n' ∧ r.head? = some '\n'
    · obtain ⟨rfl, h4b⟩ := h4
      cases r with
      | nil => simp at h4b
      | cons d r' =>
        simp at h4b
        subst h4b
        simp [whileNotDone, loopBody, switchBody, caseStart, scanStart, andPeek, isdigit,
          Scan.result]
    by_cases h5 : c = '*'
    · subst h5
      cases r with
      | nil =>
        simp [whileNotDone, loopBody, switchBody, caseStart, scanStart, andPeek, isdigit,
          Scan.result]
      | cons d r' =>
        by_cases hd : d = '*'
        · subst hd
          simp [whileNotDone, loopBody, switchBody, caseStart, scanStart, andPeek, isdigit,
            Scan.result]
        · simp [whileNotDone, loopBody, switchBody, caseStart, scanStart, andPeek, isdigit,
            Scan.result, hd]
    · have := whileNotDone_text [] r [c] (r.length + 2) le_rfl
      have hsc : scanStart (c :: r) = scanText [] [c] r := by
        simp only [scanStart, h1, h2, h3, h4, h5, hff, if_false]
      rw [hsc, ← this]
      congr 1
      cases r with
      | nil =>
        by_cases hdig : c.isDigit = true <;> by_cases hnl : c = '\n' <;>
          simp [loopBody, switchBody, caseStart, andPeek, isdigit, h1, h2, h5, hdig, hnl]
      | cons d r' =>
        by_cases hdig : c.isDigit = true <;> by_cases hnl : c = '\n' <;>
          simp_all [loopBody, switchBody, caseStart, andPeek, isdigit]

theorem nextToken_atEnd :
    nextToken IFStream.atEnd = some ⟨State.EoF, [], IFStream.failed, []⟩ := rfl

/-! ### The file a call leaves behind -/

theorem leftOf_failed (r : List Char) : LeftOf r IFStream.failed :=
  ⟨Or.inl rfl, List.nil_suffix⟩

theorem leftOf_ofList {r r' : List Char} (h : r' <:+ r) : LeftOf r (IFStream.ofList r') :=
  ⟨Or.inr (Or.inr rfl), h⟩

theorem leftOf_peek (r : List Char) : LeftOf r (IFStream.ofList r).peek.2 := by
  cases r with
  | nil => exact ⟨Or.inr (Or.inl rfl), List.nil_suffix⟩
  | cons c r => exact leftOf_ofList (List.suffix_refl _)

theorem leftOf_cons {r : List Char} {f : IFStream} (c : Char) (h : LeftOf r f) :
    LeftOf (c :: r) f :=
  ⟨h.1, h.2.trans (List.suffix_cons c r)⟩

theorem scanHeading_leftOf (err : List Char) (r : List Char) :
    ∀ text, LeftOf r (scanHeading err text r).m_file := by
  induction r with
  | nil => intro text; exact leftOf_failed _
  | cons c r ih =>
    intro text
    unfold scanHeading
    split_ifs
    · exact leftOf_ofList (List.suffix_refl _)
    · exact leftOf_ofList (List.suffix_cons c r)
    · exact leftOf_cons c (ih _)

theorem scanList_leftOf (st : State) (err : List Char) (r : List Char) :
    ∀ text, LeftOf r (scanList st err text r).m_file := by
  induction r with
  | nil => intro text; exact leftOf_failed _
  | cons c r ih =>
    intro text
    unfold scanList
    split_ifs
    · exact leftOf_ofList (List.suffix_refl _)
    · exact leftOf_cons c (leftOf_peek r)
    · exact leftOf_ofList (List.suffix_cons c r)
    · exact leftOf_cons c (ih _)

theorem scanText_leftOf (err : List Char) (r : List Char) :
    ∀ text, LeftOf r (scanText err text r).m_file := by
  induction r with
  | nil => intro text; exact leftOf_failed _
  | cons c r ih =>
    intro text
    unfold scanText
    split_ifs
    · exact leftOf_ofList (List.suffix_refl _)
    · exact leftOf_cons c (leftOf_peek r)
    · exact leftOf_ofList (List.suffix_cons c r)
    · exact leftOf_ofList (List.suffix_refl _)
    · exact leftOf_cons c (ih _)

theorem scanStart_cons (c : Char) (r : List Char) :
    scanStart (c :: r) =
      if c = '#' then scanHeading [] [] r
      else if c = '-' then scanList State.UnorderedList [] [] r
      else if c.isDigit ∧ r.head? = some '.' then scanList State.OrderedList [] [] r.tail
      else if c = '\n' ∧ r.head? = some '\n' then ⟨State.Newline, [], IFStream.ofList r.tail, []⟩
      else if c = '*' then
        if r.head? = some '*' then ⟨State.Bold, [], IFStream.ofList r.tail, []⟩
        else ⟨State.Italic, [], (IFStream.ofList r).peek.2, []⟩
      else if c = '\xff' then ⟨State.EoF, [], IFStream.ofList r, []⟩
      else scanText [] [c] r := rfl

/-- A call on the unread characters `c :: r` leaves a file on a suffix of `r`. -/
theorem scanStart_leftOf (c : Char) (r : List Char) :
    LeftOf r (scanStart (c :: r)).m_file := by
  have htail : r.tail <:+ r := List.tail_suffix r
  rw [scanStart_cons]
  split_ifs
  · exact scanHeading_leftOf _ _ _
  · exact scanList_leftOf _ _ _ _
  · exact ⟨(scanList_leftOf _ _ _ _).1, (scanList_leftOf _ _ _ _).2.trans htail⟩
  · exact leftOf_ofList htail
  · exact leftOf_ofList htail
  · exact leftOf_peek r
  · exact leftOf_ofList (List.suffix_refl _)
  · exact scanText_leftOf _ _ _

/-! ### The token sequence and the token loop -/

theorem tokensFuel_mono : ∀ (fuel : Nat) (f : IFStream) (ts : List (State × List Char)),
    tokensFuel fuel f = some ts → ∀ fuel', fuel ≤ fuel' → tokensFuel fuel' f = some ts := by
  intro fuel
  induction fuel with
  | zero => intro f ts h; simp [tokensFuel] at h
  | succ k ih =>
    intro f ts h fuel' hle
    obtain ⟨k', rfl⟩ : ∃ k', fuel' = k' + 1 := ⟨fuel' - 1, by omega⟩
    unfold tokensFuel at h ⊢
    by_cases hf : f.fail = true
    · simpa [hf] using h
    · simp only [hf, if_false, Bool.false_eq_true] at h ⊢
      cases hn : nextToken f with
      | none => simp [hn] at h
      | some t =>
        simp only [hn, Option.some_bind, Option.map_eq_some'] at h ⊢
        obtain ⟨ts', h1, h2⟩ := h
        exact ⟨ts', ih _ _ h1 _ (by omega), h2⟩

theorem tokensFuel_failed (k : Nat) : tokensFuel (k + 1) IFStream.failed = some [] := rfl

theorem tokensFuel_atEnd (k : Nat) :
    tokensFuel (k + 2) IFStream.atEnd = some [(State.EoF, [])] := rfl

theorem tokensFuel_ofList (k : Nat) (s : List Char) :
    tokensFuel (k + 1) (IFStream.ofList s) =
      (tokensFuel k (scanStart s).m_file).map
        fun ts => ((scanStart s).state, (scanStart s).tokenText) :: ts := by
  simp [tokensFuel, nextToken_ofList]

/-- Induction along the token sequence of a document: a property `Q` of a
document and its token sequence holds for every document satisfying `P`
when it holds for a last token and is carried through each call of
`nextToken`.  In particular the token loop never runs out of fuel. -/
theorem tokens_induct (P : List Char → Prop)
    (Q : List Char → List (State × List Char) → Prop)
    (hfail : ∀ s, P s → (scanStart s).m_file = IFStream.failed →
      Q s [((scanStart s).state, (scanStart s).tokenText)])
    (hend : ∀ s, P s → (scanStart s).m_file = IFStream.atEnd →
      Q s [((scanStart s).state, (scanStart s).tokenText), (State.EoF, [])])
    (hP : ∀ s r, P s → (scanStart s).m_file = IFStream.ofList r → P r)
    (hQ : ∀ s r ts, P s → (scanStart s).m_file = IFStream.ofList r → Q r ts →
      Q s (((scanStart s).state, (scanStart s).tokenText) :: ts)) :
    ∀ s, P s → ∃ ts, tokens s = some ts ∧ Q s ts := by
  have key : ∀ n s, s.length ≤ n → P s →
      ∃ ts, tokensFuel (s.length + 2) (IFStream.ofList s) = some ts ∧ Q s ts := by
    intro n
    induction n with
    | zero =>
      intro s hn hp
      have hs : s = [] := List.length_eq_zero.mp (by omega)
      subst hs
      exact ⟨_, rfl, hfail [] hp rfl⟩
    | succ n ih =>
      intro s hn hp
      cases s with
      | nil => exact ⟨_, rfl, hfail [] hp rfl⟩
      | cons c r =>
        have hleft := scanStart_leftOf c r
        rw [List.length_cons, tokensFuel_ofList]
        rcases hleft.1 with h | h | h
        · rw [h, tokensFuel_failed]
          exact ⟨_, rfl, hfail _ hp h⟩
        · rw [h, tokensFuel_atEnd]
          exact ⟨_, rfl, hend _ hp h⟩
        · have hlen : (scanStart (c :: r)).m_file.buf.length ≤ r.length := hleft.2.length_le
          have hn' : r.length ≤ n := by simpa using hn
          obtain ⟨ts, h1, h2⟩ := ih _ (hlen.trans hn') (hP _ _ hp h)
          have h3 := tokensFuel_mono _ _ _ h1 (r.length + 1 + 1) (by omega)
          rw [h, h3]
          exact ⟨_, rfl, hQ _ _ _ hp h h2⟩
  intro s hp
  exact key s.length s le_rfl hp

/-- The token loop of `main` performs the emitter's transitions on the tokens
returned by `nextToken`: its final stack and output are those of `emitAll`
on the token sequence. -/
theorem tokenLoop_eq_emitAll : ∀ (fuel : Nat) (c : Conv),
    (tokenLoop fuel c).map (fun c' => (c'.stack, c'.cout)) =
      (tokensFuel fuel c.m_file).map
        (fun ts => ((emitAll c.stack ts).1, c.cout ++ (emitAll c.stack ts).2)) := by
  intro fuel
  induction fuel with
  | zero => intro c; rfl
  | succ k ih =>
    intro c
    unfold tokenLoop tokensFuel
    by_cases hf : c.m_file.fail = true
    · simp [hf, emitAll]
    · simp only [hf, if_false, Bool.false_eq_true]
      cases hn : nextToken c.m_file with
      | none => simp [tokenStep, hn]
      | some t =>
        simp only [tokenStep, hn, Option.map_some', Option.some_bind]
        rw [ih]
        cases tokensFuel k t.m_file with
        | none => rfl
        | some ts => simp [emitAll]

/-- The stack and the output after the token loop, in terms of the token
sequence of the document. -/
theorem afterTokens_eq (input : List Char) :
    (afterTokens input).map (fun c => (c.stack, c.cout)) =
      (tokens input).map (fun ts =>
        ((emitAll [] ts).1, [Frag.HTMLBeforeBody] ++ (emitAll [] ts).2)) :=
  tokenLoop_eq_emitAll _ _

/-- The document written by `main`, in terms of the token sequence. -/
theorem html_eq (input : List Char) :
    html input = (tokens input).map (fun ts =>
      Frag.HTMLBeforeBody.chars ++ render (emitAll [] ts).2 ++
        render (drain (emitAll [] ts).1) ++ Frag.HTMLAfterBody.chars) := by
  have h := afterTokens_eq input
  unfold html main mainFuel
  unfold afterTokens at h
  cases ht : tokenLoop (input.length + 2) (Conv.init (IFStream.ofList input)) with
  | none =>
    rw [ht] at h
    cases hk : tokens input with
    | none => rfl
    | some ts => rw [hk] at h; simp at h
  | some c =>
    rw [ht] at h
    cases hk : tokens input with
    | none => rw [hk] at h; simp at h
    | some ts =>
      rw [hk] at h
      simp only [Option.map_some', Option.some.injEq, Prod.mk.injEq] at h
      simp [render, h.1, h.2]

/-! ### Plain text (C1) -/

@[simp]
theorem buf_peek_ofList (r : List Char) : (IFStream.ofList r).peek.2.buf = r := by
  cases r <;> rfl

@[simp]
theorem buf_ofList (r : List Char) : (IFStream.ofList r).buf = r := rfl

theorem scanText_state (err : List Char) (r : List Char) :
    ∀ text, (scanText err text r).state = State.Text := by
  induction r with
  | nil => intro text; rfl
  | cons c r ih =>
    intro text
    unfold scanText
    split_ifs
    · rfl
    · rfl
    · rfl
    · rfl
    · exact ih _

/-- When no byte 0xFF is unread, a `Text` token and the unread bytes it
leaves make up what was accumulated and unread before: the `Text` state
drops nothing. -/
theorem scanText_lossless (err : List Char) (r : List Char) (hff : '\xff' ∉ r) :
    ∀ text,
      (scanText err text r).tokenText ++ (scanText err text r).m_file.buf = text ++ r := by
  induction r with
  | nil => intro text; rfl
  | cons c r ih =>
    intro text
    have c0 : c ≠ '\xff' := fun e => hff (e ▸ List.mem_cons_self _ _)
    unfold scanText
    split_ifs with h1 h2 h3
    · rfl
    · subst h1; simp
    · rfl
    · have := ih (fun hm => hff (List.mem_cons_of_mem _ hm)) (text ++ [c])
      simpa using this

theorem Plain.suffix {s r : List Char} (h : Plain s) (hr : r <:+ s) : Plain r :=
  ⟨fun hm => h.1 (hr.subset hm), fun hm => h.2.1 (hr.subset hm),
    fun hm => h.2.2.1 (hr.subset hm),
    fun d hd hi => h.2.2.2.1 d hd (hi.trans hr.isInfix),
    fun hm => h.2.2.2.2 (hr.subset hm)⟩

/-- On a plain document a call returns a blank-line token for two newlines
or a `Text` token, and drops nothing. -/
theorem scanStart_plain (c : Char) (r : List Char) (h : Plain (c :: r)) :
    ((scanStart (c :: r)).state = State.Text ∧
      (scanStart (c :: r)).tokenText ++ (scanStart (c :: r)).m_file.buf = c :: r) ∨
    ((scanStart (c :: r)).state = State.Newline ∧
      ['\n', '\n'] ++ (scanStart (c :: r)).m_file.buf = c :: r) := by
  obtain ⟨h1, h2, h3, h4, h0⟩ := h
  have c0 : c ≠ '\xff' := fun e => h0 (e ▸ List.mem_cons_self _ _)
  have c1 : c ≠ '#' := fun e => h2 (e ▸ List.mem_cons_self _ _)
  have c2 : c ≠ '-' := fun e => h3 (e ▸ List.mem_cons_self _ _)
  have c3 : c ≠ '*' := fun e => h1 (e ▸ List.mem_cons_self _ _)
  have c4 : ¬ (c.isDigit = true ∧ r.head? = some '.') := by
    rintro ⟨hd, hr⟩
    cases r with
    | nil => simp at hr
    | cons e r' =>
      simp at hr
      subst hr
      exact h4 c hd ⟨[], r', rfl⟩
  rw [scanStart_cons]
  simp only [c0, c1, c2, c3, c4, if_false]
  split_ifs with h5
  · right
    obtain ⟨rfl, hr⟩ := h5
    cases r with
    | nil => simp at hr
    | cons e r' =>
      simp at hr
      subst hr
      exact ⟨rfl, rfl⟩
  · left
    have := scanText_lossless [] r (fun hm => h0 (List.mem_cons_of_mem _ hm)) [c]
    exact ⟨scanText_state _ _ _, by simpa using this⟩

/-- The round trip of plain text on documents without the byte 0xFF: for
every such document without `*`, `#`, `-` and without a digit immediately
followed by `.`, the calls of `nextToken` made until the file is exhausted
all succeed and return only `Text` and `Newline` (blank line) tokens, apart
from a possible final `EoF` token; the `Text` payloads in order, with two
newlines for each blank-line token, are the document. -/
theorem plain_text_round_trip (s : List Char) (hstar : '*' ∉ s) (hhash : '#' ∉ s)
    (hdash : '-' ∉ s) (hdd : ∀ d : Char, d.isDigit = true → ¬ [d, '.'] <:+: s)
    (hff : '\xff' ∉ s) :
    ∃ body : List (State × List Char),
      (tokens s = some body ∨ tokens s = some (body ++ [(State.EoF, [])])) ∧
      (∀ t ∈ body, t.1 = State.Text ∨ t.1 = State.Newline) ∧
      restore body = s := by
  have main := tokens_induct Plain
    (fun s ts => ∃ body : List (State × List Char),
      (ts = body ∨ ts = body ++ [(State.EoF, [])]) ∧
      (∀ t ∈ body, t.1 = State.Text ∨ t.1 = State.Newline) ∧ restore body = s)
    (by
      intro s hp hf
      cases s with
      | nil => exact ⟨[], Or.inr rfl, by simp, rfl⟩
      | cons c r =>
        refine ⟨[((scanStart (c :: r)).state, (scanStart (c :: r)).tokenText)],
          Or.inl rfl, ?_, ?_⟩
        · rcases scanStart_plain c r hp with h | h <;> simp [h.1]
        · rcases scanStart_plain c r hp with h | h
          · have h2 := h.2
            rw [hf] at h2
            simpa [restore, h.1, IFStream.failed] using h2
          · have h2 := h.2
            rw [hf] at h2
            simpa [restore, h.1, IFStream.failed] using h2)
    (by
      intro s hp hf
      cases s with
      | nil => exact absurd hf (by decide)
      | cons c r =>
        refine ⟨[((scanStart (c :: r)).state, (scanStart (c :: r)).tokenText)],
          Or.inr rfl, ?_, ?_⟩
        · rcases scanStart_plain c r hp with h | h <;> simp [h.1]
        · rcases scanStart_plain c r hp with h | h
          · have h2 := h.2
            rw [hf] at h2
            simpa [restore, h.1, IFStream.atEnd] using h2
          · have h2 := h.2
            rw [hf] at h2
            simpa [restore, h.1, IFStream.atEnd] using h2)
    (by
      intro s r hp hf
      cases s with
      | nil => exact absurd hf (by simp [scanStart, IFStream.failed, IFStream.ofList])
      | cons c r' =>
        have hl := (scanStart_leftOf c r').2
        rw [hf] at hl
        exact hp.suffix (hl.trans (List.suffix_cons c r')))
    (by
      intro s r ts hp hf ⟨body, hb, hall, hres⟩
      cases s with
      | nil => exact absurd hf (by simp [scanStart, IFStream.failed, IFStream.ofList])
      | cons c r' =>
        refine ⟨((scanStart (c :: r')).state, (scanStart (c :: r')).tokenText) :: body,
          ?_, ?_, ?_⟩
        · rcases hb with rfl | rfl
          · exact Or.inl rfl
          · exact Or.inr rfl
        · intro t ht
          rcases List.mem_cons.mp ht with rfl | ht
          · rcases scanStart_plain c r' hp with h | h <;> simp [h.1]
          · exact hall t ht
        · rcases scanStart_plain c r' hp with h | h
          · have h2 := h.2
            rw [hf] at h2
            simpa [restore, h.1, hres] using h2
          · have h2 := h.2
            rw [hf] at h2
            simpa [restore, h.1, hres] using h2)
  obtain ⟨ts, h1, body, h2, h3, h4⟩ := main s ⟨hstar, hhash, hdash, hdd, hff⟩
  refine ⟨body, ?_, h3, h4⟩
  rcases h2 with rfl | rfl
  · exact Or.inl h1
  · exact Or.inr h1

/-- The round trip on a two-paragraph document. -/
theorem plain_text_round_trip_witness :
    ∃ body : List (State × List Char),
      (tokens "ab\n\ncd\n".toList = some body ∨
        tokens "ab\n\ncd\n".toList = some (body ++ [(State.EoF, [])])) ∧
      (∀ t ∈ body, t.1 = State.Text ∨ t.1 = State.Newline) ∧
      restore body = "ab\n\ncd\n".toList :=
  plain_text_round_trip "ab\n\ncd\n".toList (by decide) (by decide) (by decide)
    (by
      intro d _ h
      have : '.' ∈ "ab\n\ncd\n".toList := h.subset (by simp)
      exact absurd this (by decide))
    (by decide)

/-- C1, the code at a failing input.  On the plain document `a`, byte 0xFF,
`b`, blank line, the calls of `nextToken` return `Text a`, `Text b`, a
blank-line token and `EoF`: the byte is taken for the end of the file, ends
the first token and is dropped, so the payloads give back `ab` and the blank
line, not the document. -/
theorem plain_text_loses_byte_ff :
    tokens "a\xffb\n\n".toList =
        some [(State.Text, "a".toList), (State.Text, "b".toList), (State.Newline, []),
          (State.EoF, [])] ∧
      restore [(State.Text, "a".toList), (State.Text, "b".toList), (State.Newline, [])] =
        "ab\n\n".toList ∧
      restore [(State.Text, "a".toList), (State.Text, "b".toList), (State.Newline, [])] ≠
        "a\xffb\n\n".toList := by
  decide

/-! ### Unclosed emphasis (C2) -/

/-- C2, the code at a failing input.  On the document `*a` the emitter writes
one `<em>` and no `</em>`: the `Italic` entry left on the stack is popped by
the final loop of `main` without a closing tag. -/
theorem unclosed_emphasis_at_end :
    (main "*a".toList).map (fun c =>
        (c.cout.count Frag.ItalicOpen, c.cout.count Frag.ItalicClose)) = some (1, 0) ∧
      html "*a".toList = some "<html>\n<body>\n<em>a</body>\n</html>\n".toList := by
  constructor <;> rfl

/-! ### Runs of ordinary characters -/

/-- The `Text` state accumulates a run of bytes that are neither a newline
nor `*` nor 0xFF. -/
theorem scanText_append (err : List Char) (t tail : List Char) (hnl : '\n' ∉ t)
    (hstar : '*' ∉ t) (hff : '\xff' ∉ t) :
    ∀ text, scanText err text (t ++ tail) = scanText err (text ++ t) tail := by
  induction t with
  | nil => intro text; simp
  | cons c t ih =>
    intro text
    have c0 : c ≠ '\xff' := fun e => hff (e ▸ List.mem_cons_self _ _)
    have c1 : c ≠ '\n' := fun e => hnl (e ▸ List.mem_cons_self _ _)
    have c2 : c ≠ '*' := fun e => hstar (e ▸ List.mem_cons_self _ _)
    have h0 : '\xff' ∉ t := fun hm => hff (List.mem_cons_of_mem _ hm)
    have h1 : '\n' ∉ t := fun hm => hnl (List.mem_cons_of_mem _ hm)
    have h2 : '*' ∉ t := fun hm => hstar (List.mem_cons_of_mem _ hm)
    rw [List.cons_append, scanText]
    simp only [c0, c1, c2, if_false]
    rw [ih h1 h2 h0]
    simp

/-- From the start state a text run is scanned by the `Text` state up to the
character that follows it, provided that character is not `.`. -/
theorem scanStart_textRun (t tail : List Char) (h : TextRun t)
    (htail : tail.head? ≠ some '.') :
    scanStart (t ++ tail) = scanText [] t tail := by
  obtain ⟨hne, hstar, hnl, h1, h2, h3, hff⟩ := h
  cases t with
  | nil => exact absurd rfl hne
  | cons c t =>
    have c0 : c ≠ '\xff' := fun e => hff (e ▸ List.mem_cons_self _ _)
    have c1 : c ≠ '#' := fun e => h1 (by simp [e])
    have c2 : c ≠ '-' := fun e => h2 (by simp [e])
    have c3 : c ≠ '*' := fun e => hstar (e ▸ List.mem_cons_self _ _)
    have c4 : c ≠ '\n' := fun e => hnl (e ▸ List.mem_cons_self _ _)
    have c5 : ¬ (c.isDigit = true ∧ (t ++ tail).head? = some '.') := by
      rintro ⟨hd, hr⟩
      cases t with
      | nil => exact htail (by simpa using hr)
      | cons e t' =>
        simp at hr
        subst hr
        exact h3 c hd ⟨t', rfl⟩
    rw [List.cons_append, scanStart_cons]
    simp only [c0, c1, c2, c3, c4, c5, if_false, false_and]
    have := scanText_append [] t tail (fun hm => hnl (List.mem_cons_of_mem _ hm))
      (fun hm => hstar (List.mem_cons_of_mem _ hm))
      (fun hm => hff (List.mem_cons_of_mem _ hm)) [c]
    simpa using this

theorem tokens_of_fuel {input : List Char} {ts : List (State × List Char)} (k : Nat)
    (hk : k ≤ input.length + 2) (h : tokensFuel k (IFStream.ofList input) = some ts) :
    tokens input = some ts :=
  tokensFuel_mono _ _ _ h _ hk

/-! ### Emphasis spans (C3) -/

/-- Emphasis spans around a text without the byte 0xFF.  For every non-empty
text `t` without `*`, newline and byte 0xFF that does not begin with `#`,
`-` or a digit followed by `.`: the document `*t*` is
scanned as `Italic`, `Text t`, `Italic` (followed by the `EoF` token of the
call that finds the end of the file) and the body written is `<em>t</em>`;
the document `**t**` is scanned as `Bold`, `Text t`, `Bold` (then `EoF`)
and the body written is `<strong>t</strong>`.  In both cases the writes are
the opening tag, the text and the closing tag only (no `<p>`), and the
stack is empty after the token loop. -/
theorem emphasis_span (t : List Char) (hne : t ≠ []) (hstar : '*' ∉ t) (hnl : '\n' ∉ t)
    (hhash : t.head? ≠ some '#') (hdash : t.head? ≠ some '-')
    (hdd : ∀ d : Char, d.isDigit = true → ¬ [d, '.'] <+: t) (hff : '\xff' ∉ t) :
    (tokens ("*".toList ++ t ++ "*".toList) =
        some [(State.Italic, []), (State.Text, t), (State.Italic, []), (State.EoF, [])] ∧
      (afterTokens ("*".toList ++ t ++ "*".toList)).map (fun c => (c.stack, c.cout)) =
        some ([], [Frag.HTMLBeforeBody, Frag.ItalicOpen, Frag.text t, Frag.ItalicClose]) ∧
      html ("*".toList ++ t ++ "*".toList) =
        some (Frag.HTMLBeforeBody.chars ++ ("<em>".toList ++ t ++ "</em>".toList) ++
          Frag.HTMLAfterBody.chars)) ∧
    (tokens ("**".toList ++ t ++ "**".toList) =
        some [(State.Bold, []), (State.Text, t), (State.Bold, []), (State.EoF, [])] ∧
      (afterTokens ("**".toList ++ t ++ "**".toList)).map (fun c => (c.stack, c.cout)) =
        some ([], [Frag.HTMLBeforeBody, Frag.StrongOpen, Frag.text t, Frag.StrongClose]) ∧
      html ("**".toList ++ t ++ "**".toList) =
        some (Frag.HTMLBeforeBody.chars ++ ("<strong>".toList ++ t ++ "</strong>".toList) ++
          Frag.HTMLAfterBody.chars)) := by
  have hrun : TextRun t := ⟨hne, hstar, hnl, hhash, hdash, hdd, hff⟩
  have hhead : ∀ tail : List Char, (t ++ tail).head? ≠ some '*' := by
    intro tail
    cases t with
    | nil => exact absurd rfl hne
    | cons c t' =>
      have c3 : c ≠ '*' := fun e => hstar (e ▸ List.mem_cons_self _ _)
      simpa using c3
  have hpeek : ∀ tail : List Char,
      (IFStream.ofList (t ++ tail)).peek.2 = IFStream.ofList (t ++ tail) := by
    intro tail
    cases t with
    | nil => exact absurd rfl hne
    | cons c t' => rfl
  have hlen : 1 ≤ t.length := List.length_pos.mpr hne
  have hI : tokens ("*".toList ++ t ++ "*".toList) =
      some [(State.Italic, []), (State.Text, t), (State.Italic, []), (State.EoF, [])] := by
    apply tokens_of_fuel 5 (by simp; omega)
    have e1 : "*".toList ++ t ++ "*".toList = '*' :: (t ++ ['*']) := by simp
    have s1 : scanStart ('*' :: (t ++ ['*'])) =
        ⟨State.Italic, [], IFStream.ofList (t ++ ['*']), []⟩ := by
      rw [scanStart_cons, if_neg (by decide), if_neg (by decide),
        if_neg (fun h => absurd h.1 (by decide)), if_neg (fun h => absurd h.1 (by decide)),
        if_pos rfl, if_neg (hhead _), hpeek]
    have s2 : scanStart (t ++ ['*']) = ⟨State.Text, t, IFStream.ofList ['*'], []⟩ := by
      rw [scanStart_textRun t ['*'] hrun (by simp)]
      simp [scanText]
    have s3 : scanStart ['*'] = ⟨State.Italic, [], IFStream.atEnd, []⟩ := rfl
    rw [e1, tokensFuel_ofList, s1]
    simp only
    rw [tokensFuel_ofList, s2]
    simp only
    rw [tokensFuel_ofList, s3]
    rfl
  have hB : tokens ("**".toList ++ t ++ "**".toList) =
      some [(State.Bold, []), (State.Text, t), (State.Bold, []), (State.EoF, [])] := by
    apply tokens_of_fuel 5 (by simp)
    have e1 : "**".toList ++ t ++ "**".toList = '*' :: '*' :: (t ++ ['*', '*']) := by simp
    have s1 : scanStart ('*' :: '*' :: (t ++ ['*', '*'])) =
        ⟨State.Bold, [], IFStream.ofList (t ++ ['*', '*']), []⟩ := by
      rw [scanStart_cons]
      simp
    have s2 : scanStart (t ++ ['*', '*']) =
        ⟨State.Text, t, IFStream.ofList ['*', '*'], []⟩ := by
      rw [scanStart_textRun t ['*', '*'] hrun (by simp)]
      simp [scanText]
    have s3 : scanStart ['*', '*'] = ⟨State.Bold, [], IFStream.ofList [], []⟩ := rfl
    have s4 : scanStart [] = ⟨State.EoF, [], IFStream.failed, []⟩ := rfl
    rw [e1, tokensFuel_ofList, s1]
    simp only
    rw [tokensFuel_ofList, s2]
    simp only
    rw [tokensFuel_ofList, s3]
    simp only
    rw [tokensFuel_ofList, s4]
    rfl
  refine ⟨⟨hI, ?_, ?_⟩, ⟨hB, ?_, ?_⟩⟩
  · rw [afterTokens_eq, hI]
    simp [emitAll, emit]
  · rw [html_eq, hI]
    simp [emitAll, emit, render, drain, Frag.chars]
  · rw [afterTokens_eq, hB]
    simp [emitAll, emit]
  · rw [html_eq, hB]
    simp [emitAll, emit, render, drain, Frag.chars]

/-- The emphasis spans of the specification's example, with the text `a`. -/
theorem emphasis_span_witness :
    html "*a*".toList = some "<html>\n<body>\n<em>a</em></body>\n</html>\n".toList ∧
    html "**a**".toList =
      some "<html>\n<body>\n<strong>a</strong></body>\n</html>\n".toList :=
  have h := emphasis_span "a".toList (by decide) (by decide) (by decide) (by decide)
    (by decide) (by
      intro d _ hp
      have : '.' ∈ "a".toList := hp.subset (by simp)
      exact absurd this (by decide)) (by decide)
  ⟨h.1.2.2, h.2.2.2⟩

/-- C3, the code at a failing input.  The text `a`, byte 0xFF, `b` is in
the domain of the claim, but the document `*t*` is scanned as `Italic`,
`Text a`, `Text b`, `Italic`, `EoF`: the byte is taken for the end of the
file, ends the first `Text` token and is dropped, and the body written is
`<em>ab</em>`, not `<em>t</em>`. -/
theorem emphasis_span_loses_byte_ff :
    tokens "*a\xffb*".toList =
        some [(State.Italic, []), (State.Text, "a".toList), (State.Text, "b".toList),
          (State.Italic, []), (State.EoF, [])] ∧
      html "*a\xffb*".toList = some "<html>\n<body>\n<em>ab</em></body>\n</html>\n".toList ∧
      html "*a\xffb*".toList ≠
        some "<html>\n<body>\n<em>a\xffb</em></body>\n</html>\n".toList := by
  decide

/-! ### Headings (C4) -/

/-- The `Heading` state accumulates a text without blank line and without
the byte 0xFF up to the blank line that follows it. -/
theorem scanHeading_run (err : List Char) (rest : List Char) (t : List Char) :
    ∀ text, ¬ ['\n', '\n'] <:+: t → t.getLast? ≠ some '\n' → '\xff' ∉ t →
      scanHeading err text (t ++ '\n' :: '\n' :: rest) =
        ⟨State.Heading, text ++ t, IFStream.ofList ('\n' :: '\n' :: rest), err⟩ := by
  induction t with
  | nil => intro text _ _ _; simp [scanHeading]
  | cons c t ih =>
    intro text h1 h2 h3
    have c0 : c ≠ '\xff' := fun e => h3 (e ▸ List.mem_cons_self _ _)
    have h3' : '\xff' ∉ t := fun hm => h3 (List.mem_cons_of_mem _ hm)
    have hc : ¬ (c = '\n' ∧ (t ++ '\n' :: '\n' :: rest).head? = some '\n') := by
      rintro ⟨rfl, hh⟩
      cases t with
      | nil => exact h2 rfl
      | cons d t' =>
        simp at hh
        subst hh
        exact h1 ⟨[], t', rfl⟩
    have h1' : ¬ ['\n', '\n'] <:+: t := fun hi => h1 (hi.trans (List.suffix_cons c t).isInfix)
    have h2' : t.getLast? ≠ some '\n' := by
      cases t with
      | nil => simp
      | cons d t' => simpa [List.getLast?_cons_cons] using h2
    rw [List.cons_append, scanHeading, if_neg hc, if_neg c0, ih _ h1' h2' h3']
    simp

/-- Headings without the byte 0xFF.  For every text `t` without two
consecutive newlines and without the byte 0xFF that does not end with a
newline, the document `#t` followed by a blank line is scanned as
`Heading t`, a blank-line token and the final `EoF`; `main` writes, between
the prologue and the epilogue, exactly `<h1>t</h1>` and a newline; and the
stack is empty after every token. -/
theorem heading_line (t : List Char) (h1 : ¬ ['\n', '\n'] <:+: t)
    (h2 : t.getLast? ≠ some '\n') (h3 : '\xff' ∉ t) :
    tokens ("#".toList ++ t ++ "\n\n".toList) =
      some [(State.Heading, t), (State.Newline, []), (State.EoF, [])] ∧
    html ("#".toList ++ t ++ "\n\n".toList) =
      some (Frag.HTMLBeforeBody.chars ++ ("<h1>".toList ++ t ++ "</h1>\n".toList) ++
        Frag.HTMLAfterBody.chars) ∧
    ∀ pre : List (State × List Char),
      pre <+: [(State.Heading, t), (State.Newline, []), (State.EoF, [])] →
      (emitAll [] pre).1 = [] := by
  have hT : tokens ("#".toList ++ t ++ "\n\n".toList) =
      some [(State.Heading, t), (State.Newline, []), (State.EoF, [])] := by
    apply tokens_of_fuel 4 (by simp)
    have e1 : "#".toList ++ t ++ "\n\n".toList = '#' :: (t ++ ['\n', '\n']) := by simp
    have s1 : scanStart ('#' :: (t ++ ['\n', '\n'])) =
        ⟨State.Heading, t, IFStream.ofList ['\n', '\n'], []⟩ := by
      rw [scanStart_cons, if_pos rfl, scanHeading_run [] [] t [] h1 h2 h3]
      simp
    have s2 : scanStart ['\n', '\n'] = ⟨State.Newline, [], IFStream.ofList [], []⟩ := rfl
    have s3 : scanStart [] = ⟨State.EoF, [], IFStream.failed, []⟩ := rfl
    rw [e1, tokensFuel_ofList, s1]
    simp only
    rw [tokensFuel_ofList, s2]
    simp only
    rw [tokensFuel_ofList, s3]
    rfl
  refine ⟨hT, ?_, ?_⟩
  · rw [html_eq, hT]
    simp [emitAll, emit, render, drain, Frag.chars]
  · intro pre hpre
    obtain ⟨suf, hs⟩ := hpre
    rcases pre with _ | ⟨x, _ | ⟨y, _ | ⟨z, _ | ⟨w, pre'⟩⟩⟩⟩
    · rfl
    · simp at hs
      obtain ⟨rfl, -⟩ := hs
      simp [emitAll, emit]
    · simp at hs
      obtain ⟨rfl, rfl, -⟩ := hs
      simp [emitAll, emit]
    · simp at hs
      obtain ⟨rfl, rfl, rfl, -⟩ := hs
      simp [emitAll, emit]
    · simp at hs

/-- The heading of the specification's example. -/
theorem heading_line_witness :
    html "# Title\n\n".toList =
      some "<html>\n<body>\n<h1> Title</h1>\n</body>\n</html>\n".toList :=
  (heading_line " Title".toList
    (by
      intro h
      have : '\n' ∈ " Title".toList := h.subset (by simp)
      exact absurd this (by decide))
    (by decide) (by decide)).2.1

/-- C4, the code at a failing input.  The text `a`, byte 0xFF, `b` is in
the domain of the claim, but on the document `#t` followed by a blank line
the first call returns the state `Bad` with the text `a` and leaves `b` and
the blank line unread: the byte is taken for the end of the file.  No `<h1>`
is written; the rest is converted as a paragraph. -/
theorem heading_stops_at_byte_ff :
    nextToken (IFStream.ofList "#a\xffb\n\n".toList) =
        some ⟨State.Bad, "a".toList, IFStream.ofList "b\n\n".toList, HeadingError⟩ ∧
      tokens "#a\xffb\n\n".toList =
        some [(State.Bad, "a".toList), (State.Text, "b".toList), (State.Newline, []),
          (State.EoF, [])] ∧
      html "#a\xffb\n\n".toList =
        some "<html>\n<body>\n<p>\nb\n</p>\n</body>\n</html>\n".toList := by
  decide

/-! ### Unordered lists (C5) -/

/-- The token sequence of a document whose first call leaves a fresh file. -/
theorem tokens_cons (s r : List Char) (ts : List (State × List Char))
    (hf : (scanStart s).m_file = IFStream.ofList r) (ht : tokens r = some ts) :
    tokens s = some (((scanStart s).state, (scanStart s).tokenText) :: ts) := by
  cases s with
  | nil => exact absurd hf (by simp [scanStart, IFStream.failed, IFStream.ofList])
  | cons c r0 =>
    have hl := (scanStart_leftOf c r0).2.length_le
    rw [hf] at hl
    have hl' : r.length ≤ r0.length := hl
    unfold tokens
    rw [List.length_cons, tokensFuel_ofList, hf,
      tokensFuel_mono _ _ _ ht (r0.length + 1 + 1) (by omega)]
    rfl

/-- A list state accumulates a text without newline and without the byte
0xFF up to the newline that ends the line; the newline is consumed unless
another newline follows. -/
theorem scanList_run (st : State) (err : List Char) (rest : List Char) (u : List Char)
    (hu : '\n' ∉ u) (hff : '\xff' ∉ u) :
    ∀ text, scanList st err text (u ++ '\n' :: rest) =
      if rest.head? = some '\n' then ⟨st, text ++ u, IFStream.ofList ('\n' :: rest), err⟩
      else ⟨st, text ++ u, (IFStream.ofList rest).peek.2, err⟩ := by
  induction u with
  | nil => intro text; simp [scanList]
  | cons c u ih =>
    intro text
    have c0 : c ≠ '\xff' := fun e => hff (e ▸ List.mem_cons_self _ _)
    have c1 : c ≠ '\n' := fun e => hu (e ▸ List.mem_cons_self _ _)
    rw [List.cons_append, scanList, if_neg c1, if_neg c0,
      ih (fun hm => hu (List.mem_cons_of_mem _ hm)) (fun hm => hff (List.mem_cons_of_mem _ hm))]
    simp

/-- The token sequence of a list of `- ` lines followed by a blank line: one
`UnorderedList` token per line, whose text is the line after the `-`. -/
theorem tokens_listLines : ∀ (items : List (List Char)) (t0 : List Char),
    '\n' ∉ t0 → (∀ t ∈ items, '\n' ∉ t) → '\xff' ∉ t0 → (∀ t ∈ items, '\xff' ∉ t) →
    tokens (listLines (t0 :: items) ++ ['\n']) =
      some (((t0 :: items).map fun t => (State.UnorderedList, ' ' :: t)) ++
        [(State.Newline, []), (State.EoF, [])]) := by
  intro items
  induction items with
  | nil =>
    intro t0 h0 _ f0 _
    have e : listLines [t0] ++ ['\n'] = '-' :: ((' ' :: t0) ++ '\n' :: ['\n']) := by
      simp [listLines]
    have s1 : scanStart ('-' :: ((' ' :: t0) ++ '\n' :: ['\n'])) =
        ⟨State.UnorderedList, ' ' :: t0, IFStream.ofList ['\n', '\n'], []⟩ := by
      rw [scanStart_cons, if_neg (by decide), if_pos rfl,
        scanList_run _ _ _ (' ' :: t0) (by simpa using h0) (by simpa using f0)]
      simp
    rw [e]
    have := tokens_cons _ ['\n', '\n'] [(State.Newline, []), (State.EoF, [])]
      (by rw [s1]) rfl
    rw [this, s1]
    rfl
  | cons t1 items ih =>
    intro t0 h0 hall f0 fall
    have h1 : '\n' ∉ t1 := hall t1 (List.mem_cons_self _ _)
    have hrest : ∀ t ∈ items, '\n' ∉ t := fun t ht => hall t (List.mem_cons_of_mem _ ht)
    have f1 : '\xff' ∉ t1 := fall t1 (List.mem_cons_self _ _)
    have frest : ∀ t ∈ items, '\xff' ∉ t := fun t ht => fall t (List.mem_cons_of_mem _ ht)
    have e : listLines (t0 :: t1 :: items) ++ ['\n'] =
        '-' :: ((' ' :: t0) ++ '\n' :: (listLines (t1 :: items) ++ ['\n'])) := by
      simp [listLines]
    have hhead : (listLines (t1 :: items) ++ ['\n']).head? = some '-' := by
      simp [listLines]
    have hpeek : (IFStream.ofList (listLines (t1 :: items) ++ ['\n'])).peek.2 =
        IFStream.ofList (listLines (t1 :: items) ++ ['\n']) := by
      simp [listLines]
    have s1 : scanStart ('-' :: ((' ' :: t0) ++ '\n' :: (listLines (t1 :: items) ++ ['\n']))) =
        ⟨State.UnorderedList, ' ' :: t0,
          IFStream.ofList (listLines (t1 :: items) ++ ['\n']), []⟩ := by
      rw [scanStart_cons, if_neg (by decide), if_pos rfl,
        scanList_run _ _ _ (' ' :: t0) (by simpa using h0) (by simpa using f0), hhead, hpeek]
      simp
    rw [e]
    have := tokens_cons _ _ _ (by rw [s1]) (ih t1 h1 hrest f1 frest)
    rw [this, s1]
    rfl

theorem emitAll_append (a b : List (State × List Char)) :
    ∀ stack, emitAll stack (a ++ b) =
      ((emitAll (emitAll stack a).1 b).1, (emitAll stack a).2 ++ (emitAll (emitAll stack a).1 b).2) := by
  induction a with
  | nil => intro stack; simp [emitAll]
  | cons t a ih => intro stack; simp [emitAll, ih]

/-- On an open list, item tokens of its kind write one `<li>` element each
and leave the stack as it is. -/
theorem emitAll_items (k : State) (hk : k = State.UnorderedList ∨ k = State.OrderedList)
    (stack : List State) (texts : List (List Char)) :
    emitAll (k :: stack) (texts.map fun t => (k, t)) =
      (k :: stack, (texts.map liFrags).flatten) := by
  induction texts with
  | nil => rfl
  | cons t texts ih =>
    rcases hk with rfl | rfl <;>
      simp [emitAll, emit, liFrags] at ih ⊢ <;> simp [ih]

theorem render_append (a b : List Frag) : render (a ++ b) = render a ++ render b := by
  simp [render]

theorem render_liFrags (texts : List (List Char)) :
    render (texts.map liFrags).flatten =
      (texts.map fun t => "<li>".toList ++ t ++ "</li>\n".toList).flatten := by
  induction texts with
  | nil => rfl
  | cons t texts ih =>
    rw [List.map_cons, List.flatten_cons, render_append, ih]
    simp [render, liFrags, Frag.chars]

/-- C5, counterexample.  For the items `one` and `two` the document of the
specification's example is not converted to the body the claim states: each
`<li>` holds the space that follows the `-` marker. -/
theorem list_item_text_counterexample :
    html "- one\n- two\n\n".toList ≠
        some "<html>\n<body>\n<ul>\n<li>one</li>\n<li>two</li>\n</ul>\n</body>\n</html>\n".toList ∧
      html "- one\n- two\n\n".toList =
        some "<html>\n<body>\n<ul>\n<li> one</li>\n<li> two</li>\n</ul>\n</body>\n</html>\n".toList := by
  decide

/-- C5, amended.  For every non-empty list of item texts without newline and
without the byte 0xFF, the document made of the lines `- t` followed by one
more newline is scanned
as one `UnorderedList` token per line, whose text is the line after the `-`
(the space included), a blank-line token and the final `EoF`; the body
written is `<ul>`, then `<li> t</li>` for each item in order, then `</ul>`,
each followed by a newline. -/
theorem unordered_list_lines (items : List (List Char)) (hne : items ≠ [])
    (hnl : ∀ t ∈ items, '\n' ∉ t) (hff : ∀ t ∈ items, '\xff' ∉ t) :
    tokens (listLines items ++ "\n".toList) =
      some ((items.map fun t => (State.UnorderedList, " ".toList ++ t)) ++
        [(State.Newline, []), (State.EoF, [])]) ∧
    html (listLines items ++ "\n".toList) =
      some (Frag.HTMLBeforeBody.chars ++
        ("<ul>\n".toList ++
          (items.map fun t => "<li>".toList ++ (" ".toList ++ t) ++ "</li>\n".toList).flatten ++
          "</ul>\n".toList) ++
        Frag.HTMLAfterBody.chars) := by
  cases items with
  | nil => exact absurd rfl hne
  | cons t0 items =>
    have hT := tokens_listLines items t0 (hnl t0 (List.mem_cons_self _ _))
      (fun t ht => hnl t (List.mem_cons_of_mem _ ht)) (hff t0 (List.mem_cons_self _ _))
      (fun t ht => hff t (List.mem_cons_of_mem _ ht))
    have hT' : tokens (listLines (t0 :: items) ++ "\n".toList) =
        some (((t0 :: items).map fun t => (State.UnorderedList, " ".toList ++ t)) ++
          [(State.Newline, []), (State.EoF, [])]) := by
      simpa using hT
    refine ⟨hT', ?_⟩
    rw [html_eq, show "\n".toList = ['\n'] from rfl, hT]
    have hmap : (items.map fun t => (State.UnorderedList, ' ' :: t)) =
        ((items.map fun t => ' ' :: t).map fun t => (State.UnorderedList, t)) := by
      simp
    have hemit : emitAll [] (((t0 :: items).map fun t => (State.UnorderedList, ' ' :: t)) ++
        [(State.Newline, []), (State.EoF, [])]) =
        ([], [Frag.UlOpen] ++ liFrags (' ' :: t0) ++
          ((items.map fun t => ' ' :: t).map liFrags).flatten ++ [Frag.UlClose]) := by
      rw [List.map_cons, List.cons_append, emitAll, hmap, emitAll_append,
        show (emit State.UnorderedList (' ' :: t0) []).1 = [State.UnorderedList] from rfl,
        emitAll_items _ (Or.inl rfl)]
      simp [emitAll, emit, liFrags]
    simp only [Option.map_some']
    rw [hemit]
    simp only [Option.some.injEq, render_append, render_liFrags]
    simp [render, drain, liFrags, Frag.chars, List.map_map, Function.comp_def]

/-- Witness for C5 (amended) on the items `one` and `two`. -/
theorem unordered_list_lines_witness :
    html (listLines ["one".toList, "two".toList] ++ "\n".toList) =
      some (Frag.HTMLBeforeBody.chars ++
        ("<ul>\n".toList ++
          (["one".toList, "two".toList].map
            fun t => "<li>".toList ++ (" ".toList ++ t) ++ "</li>\n".toList).flatten ++
          "</ul>\n".toList) ++
        Frag.HTMLAfterBody.chars) :=
  (unordered_list_lines ["one".toList, "two".toList] (by decide) (by decide) (by decide)).2

/-! ### Paragraphs (C6) -/

/-- Paragraphs without the byte 0xFF.  For every non-empty text `t` without
newline, `*` and byte 0xFF that does not begin with `#`, `-` or a digit
followed by `.`, the document `t` followed by
a blank line is scanned as `Text t`, a blank-line token and the final `EoF`,
and the body written is `<p>`, a newline, `t` unchanged (no character of it
is escaped), a newline, `</p>` and a newline. -/
theorem bare_paragraph (t : List Char) (hne : t ≠ []) (hnl : '\n' ∉ t) (hstar : '*' ∉ t)
    (hhash : t.head? ≠ some '#') (hdash : t.head? ≠ some '-')
    (hdd : ∀ d : Char, d.isDigit = true → ¬ [d, '.'] <+: t) (hff : '\xff' ∉ t) :
    tokens (t ++ "\n\n".toList) =
      some [(State.Text, t), (State.Newline, []), (State.EoF, [])] ∧
    html (t ++ "\n\n".toList) =
      some (Frag.HTMLBeforeBody.chars ++ ("<p>\n".toList ++ t ++ "\n</p>\n".toList) ++
        Frag.HTMLAfterBody.chars) := by
  have hrun : TextRun t := ⟨hne, hstar, hnl, hhash, hdash, hdd, hff⟩
  have s1 : scanStart (t ++ ['\n', '\n']) =
      ⟨State.Text, t, IFStream.ofList ['\n', '\n'], []⟩ := by
    rw [scanStart_textRun t ['\n', '\n'] hrun (by simp)]
    simp [scanText]
  have hT : tokens (t ++ "\n\n".toList) =
      some [(State.Text, t), (State.Newline, []), (State.EoF, [])] := by
    have := tokens_cons (t ++ ['\n', '\n']) ['\n', '\n']
      [(State.Newline, []), (State.EoF, [])] (by rw [s1]) rfl
    rw [s1] at this
    exact this
  refine ⟨hT, ?_⟩
  rw [html_eq, hT]
  simp [emitAll, emit, render, drain, Frag.chars]

/-- The paragraph of the specification's example. -/
theorem bare_paragraph_witness :
    html "hello world\n\n".toList =
      some "<html>\n<body>\n<p>\nhello world\n</p>\n</body>\n</html>\n".toList :=
  (bare_paragraph "hello world".toList (by decide) (by decide) (by decide) (by decide)
    (by decide) (by
      intro d _ hp
      have : '.' ∈ "hello world".toList := hp.subset (by simp)
      exact absurd this (by decide)) (by decide)).2

/-- C6, the code at a failing input.  The text `a`, byte 0xFF, `b` is in
the domain of the claim, but the document `t` followed by a blank line is
scanned as `Text a`, `Text b`, a blank-line token and `EoF`, and the body
written holds `ab`: the byte is taken for the end of the file and dropped. -/
theorem paragraph_loses_byte_ff :
    tokens "a\xffb\n\n".toList =
        some [(State.Text, "a".toList), (State.Text, "b".toList), (State.Newline, []),
          (State.EoF, [])] ∧
      html "a\xffb\n\n".toList =
        some "<html>\n<body>\n<p>\nab\n</p>\n</body>\n</html>\n".toList ∧
      html "a\xffb\n\n".toList ≠
        some "<html>\n<body>\n<p>\na\xffb\n</p>\n</body>\n</html>\n".toList := by
  decide

/-! ### Progress and termination (C7) -/

/-- Every document has a token sequence, of at most one token per character
and one for the end of the file. -/
theorem tokens_total (input : List Char) :
    ∃ ts, tokens input = some ts ∧ ts.length ≤ input.length + 1 := by
  refine tokens_induct (fun _ => True) (fun s ts => ts.length ≤ s.length + 1)
    ?_ ?_ ?_ ?_ input trivial
  · intro s _ _
    simp
  · intro s _ hf
    cases s with
    | nil => exact absurd hf (by decide)
    | cons c r => simp
  · intro _ _ _ _
    trivial
  · intro s r ts _ hf hq
    cases s with
    | nil => exact absurd hf (by simp [scanStart, IFStream.failed, IFStream.ofList])
    | cons c r0 =>
      have hl := (scanStart_leftOf c r0).2.length_le
      rw [hf] at hl
      have hl' : r.length ≤ r0.length := hl
      simp only [List.length_cons]
      omega

/-- The function `main` returns on every document. -/
theorem main_total (input : List Char) : ∃ c, main input = some c := by
  obtain ⟨ts, hts, -⟩ := tokens_total input
  have h := afterTokens_eq input
  rw [hts] at h
  unfold afterTokens at h
  unfold main mainFuel
  cases ht : tokenLoop (input.length + 2) (Conv.init (IFStream.ofList input)) with
  | none => rw [ht] at h; simp at h
  | some c => exact ⟨_, rfl⟩

/-- C7. On a file in good state with unread characters, `nextToken` returns
(its loop does not run out of fuel) and what it leaves unread, after any
`putback`, is a proper suffix of what was unread before; on a file without
unread characters it returns `EoF`.  Hence for every document, malformed or
not, the token loop makes at most one pass per character and one for the end
of the file, and `main` returns. -/
theorem scanner_progress :
    (∀ f : IFStream, f.good = true → f.buf ≠ [] →
      ∃ t, nextToken f = some t ∧ ∃ pre, pre ≠ [] ∧ f.buf = pre ++ t.m_file.buf) ∧
    (∀ f : IFStream, f.buf = [] → ∃ t, nextToken f = some t ∧ t.state = State.EoF) ∧
    (∀ input : List Char, ∃ ts c,
      tokens input = some ts ∧ ts.length ≤ input.length + 1 ∧ main input = some c) := by
  refine ⟨?_, ?_, ?_⟩
  · rintro ⟨buf, e, fl⟩ hgood hne
    cases e <;> cases fl <;> simp [IFStream.good] at hgood
    cases buf with
    | nil => exact absurd rfl hne
    | cons c r =>
      refine ⟨scanStart (c :: r), nextToken_ofList (c :: r), ?_⟩
      obtain ⟨pre, hpre⟩ := (scanStart_leftOf c r).2
      refine ⟨c :: pre, List.cons_ne_nil _ _, ?_⟩
      show c :: r = c :: pre ++ (scanStart (c :: r)).m_file.buf
      rw [List.cons_append, hpre]
  · rintro ⟨buf, e, fl⟩ hbuf
    simp only at hbuf
    subst hbuf
    cases e <;> cases fl <;> exact ⟨_, rfl, rfl⟩
  · intro input
    obtain ⟨ts, h1, h2⟩ := tokens_total input
    obtain ⟨c, h3⟩ := main_total input
    exact ⟨ts, c, h1, h2, h3⟩

/-- Witness for C7 on the heading without terminating blank line of the
specification. -/
theorem scanner_progress_witness :
    (∃ t, nextToken (IFStream.ofList "# Title".toList) = some t ∧
      ∃ pre, pre ≠ [] ∧ "# Title".toList = pre ++ t.m_file.buf) ∧
    (∃ ts c, tokens "# Title".toList = some ts ∧ ts.length ≤ "# Title".toList.length + 1 ∧
      main "# Title".toList = some c) :=
  ⟨scanner_progress.1 (IFStream.ofList "# Title".toList) rfl (by decide),
    scanner_progress.2.2 "# Title".toList⟩

/-! ### Malformed tokens (C8) -/

theorem nlnl_prefix_iff (c : Char) (r : List Char) :
    ['\n', '\n'] <+: c :: r ↔ c = '\n' ∧ r.head? = some '\n' := by
  cases r with
  | nil => simp
  | cons d r' =>
    simp only [List.cons_prefix_cons, List.head?_cons, Option.some.injEq]
    constructor
    · rintro ⟨h1, h2, -⟩; exact ⟨h1.symm, h2.symm⟩
    · rintro ⟨h1, h2⟩; exact ⟨h1.symm, h2.symm, List.nil_prefix⟩

/-- When no byte 0xFF is unread, the `Heading` state ends in `Bad` exactly
when no blank line follows. -/
theorem scanHeading_bad (err : List Char) (r : List Char) (hff : '\xff' ∉ r) :
    ∀ text, (scanHeading err text r).state = State.Bad ↔ ¬ ['\n', '\n'] <:+: r := by
  induction r with
  | nil => intro text; simp [scanHeading]
  | cons c r ih =>
    intro text
    have c0 : c ≠ '\xff' := fun e => hff (e ▸ List.mem_cons_self _ _)
    rw [scanHeading, List.infix_cons_iff, nlnl_prefix_iff]
    split_ifs with h
    · simp [h]
    · rw [ih (fun hm => hff (List.mem_cons_of_mem _ hm))]
      simp [h]

/-- When no byte 0xFF is unread, a list state ends in `Bad` exactly when no
newline follows. -/
theorem scanList_bad (st : State) (hst : st ≠ State.Bad) (err : List Char) (r : List Char)
    (hff : '\xff' ∉ r) :
    ∀ text, (scanList st err text r).state = State.Bad ↔ '\n' ∉ r := by
  induction r with
  | nil => intro text; simp [scanList]
  | cons c r ih =>
    intro text
    have c0 : c ≠ '\xff' := fun e => hff (e ▸ List.mem_cons_self _ _)
    rw [scanList]
    split_ifs with h1 h2
    · simp [h1, hst]
    · simp [h1, hst]
    · rw [ih (fun hm => hff (List.mem_cons_of_mem _ hm))]
      simp [Ne.symm h1]

theorem scanStart_bad (s : List Char) (hff : '\xff' ∉ s) :
    (scanStart s).state = State.Bad ↔ PrematureEnd s := by
  unfold PrematureEnd
  cases s with
  | nil => simp [scanStart]
  | cons c r =>
    have c0 : c ≠ '\xff' := fun e => hff (e ▸ List.mem_cons_self _ _)
    have hr : '\xff' ∉ r := fun hm => hff (List.mem_cons_of_mem _ hm)
    rw [scanStart_cons]
    by_cases h1 : c = '#'
    · subst h1
      rw [if_pos rfl, scanHeading_bad _ _ hr]
      constructor
      · intro h; exact Or.inl ⟨r, rfl, h⟩
      · rintro (⟨r', he, h⟩ | ⟨r', he, -⟩ | ⟨d, r', hd, he, -⟩)
        · simp at he; subst he; exact h
        · simp at he
        · simp at he; obtain ⟨rfl, -⟩ := he; exact absurd hd (by decide)
    by_cases h2 : c = '-'
    · subst h2
      rw [if_neg h1, if_pos rfl, scanList_bad _ (by decide) _ _ hr]
      constructor
      · intro h; exact Or.inr (Or.inl ⟨r, rfl, h⟩)
      · rintro (⟨r', he, -⟩ | ⟨r', he, h⟩ | ⟨d, r', hd, he, -⟩)
        · simp at he
        · simp at he; subst he; exact h
        · simp at he; obtain ⟨rfl, -⟩ := he; exact absurd hd (by decide)
    rw [if_neg h1, if_neg h2]
    by_cases h3 : c.isDigit = true ∧ r.head? = some '.'
    · rw [if_pos h3, scanList_bad _ (by decide) _ _
        (fun hm => hr (List.mem_of_mem_tail hm))]
      obtain ⟨h3a, h3b⟩ := h3
      cases r with
      | nil => simp at h3b
      | cons e r' =>
        simp at h3b
        subst h3b
        constructor
        · intro h; exact Or.inr (Or.inr ⟨c, r', h3a, rfl, h⟩)
        · rintro (⟨r'', he, -⟩ | ⟨r'', he, -⟩ | ⟨d, r'', -, he, h⟩)
          · simp at he; exact absurd he.1 h1
          · simp at he; exact absurd he.1 h2
          · simp at he; obtain ⟨-, rfl⟩ := he; exact h
    · rw [if_neg h3]
      have hrhs : ¬ ((∃ r', c :: r = '#' :: r' ∧ ¬ ['\n', '\n'] <:+: r') ∨
          (∃ r', c :: r = '-' :: r' ∧ '\n' ∉ r') ∨
          (∃ d r', d.isDigit = true ∧ c :: r = d :: '.' :: r' ∧ '\n' ∉ r')) := by
        rintro (⟨r', he, -⟩ | ⟨r', he, -⟩ | ⟨d, r', hd, he, -⟩)
        · simp at he; exact h1 he.1
        · simp at he; exact h2 he.1
        · simp at he
          obtain ⟨rfl, rfl⟩ := he
          exact h3 ⟨hd, rfl⟩
      constructor
      · intro h
        exfalso
        split_ifs at h
        simp [scanText_state] at h
      · intro h
        exact absurd h hrhs

/-- The switch leaves the loop done or in a state with a `case` label. -/
theorem switchBody_hasCase (s : Scan) :
    (switchBody s).done = true ∨ (switchBody s).currState.hasCase = true := by
  obtain ⟨d, c, st, text, f, err⟩ := s
  cases st <;> simp only [switchBody, caseStart, caseHeading, caseList, caseText, true_or]
  · split_ifs <;> cases c <;> simp [State.hasCase]
  · split_ifs <;> cases c <;> simp [State.hasCase]
  · split_ifs <;> cases c <;> simp [State.hasCase]
    split_ifs <;> simp
  · split_ifs <;> cases c <;> simp [State.hasCase]
  · split_ifs <;> cases c <;> simp [State.hasCase]

theorem loopBody_hasCase (s : Scan) :
    (loopBody s).done = true ∨ (loopBody s).currState.hasCase = true := by
  unfold loopBody
  rcases switchBody_hasCase s with h | h
  · left; simp [h]
  · by_cases hd : (switchBody s).done = true
    · left; simp [hd]
    · right; simpa [hd] using h

theorem switchStates_hasCase : ∀ (fuel : Nat) (s : Scan),
    (s.done = true ∨ s.currState.hasCase = true) →
    ∀ st ∈ switchStates fuel s, st.hasCase = true := by
  intro fuel
  induction fuel with
  | zero => intro s _ st hst; simp [switchStates] at hst
  | succ k ih =>
    intro s hs st hst
    unfold switchStates at hst
    by_cases hd : s.done = true
    · simp [hd] at hst
    · simp only [hd, if_false, Bool.false_eq_true, List.mem_cons] at hst
      rcases hst with rfl | hst
      · exact hs.resolve_left hd
      · exact ih _ (loopBody_hasCase s) st hst

/-- Malformed tokens on documents without the byte 0xFF.  For every such
document `s`, `nextToken` returns a token whose state is `Bad` if and only
if `s` begins with `#` and the bytes after it hold no two consecutive
newlines, or `s` begins with `-`, or with a digit followed by `.`, and the
bytes after that marker hold no newline.  Moreover, on every document, the
switch is only ever executed on a state that has its own `case` label: the
`default` branch is never reached. -/
theorem malformed_iff_premature_end (s : List Char) (hff : '\xff' ∉ s) :
    ∃ t, nextToken (IFStream.ofList s) = some t ∧
      (t.state = State.Bad ↔
        ((∃ r, s = '#' :: r ∧ ¬ ['\n', '\n'] <:+: r) ∨
         (∃ r, s = '-' :: r ∧ '\n' ∉ r) ∨
         (∃ d r, d.isDigit = true ∧ s = d :: '.' :: r ∧ '\n' ∉ r))) ∧
      ∀ st ∈ switchStates (s.length + 2) (Scan.init (IFStream.ofList s)),
        st.hasCase = true :=
  ⟨scanStart s, nextToken_ofList s, scanStart_bad s hff,
    switchStates_hasCase _ _ (Or.inr rfl)⟩

/-- C8, the code at a failing input.  On the document `#a`, byte 0xFF, `b`,
blank line, the call returns the state `Bad` although two consecutive
newlines follow the `#`; on `-a`, byte 0xFF, `b`, newline it returns `Bad`
although a newline follows the `-`.  In both cases the byte is taken for the
end of the file. -/
theorem malformed_at_byte_ff :
    (nextToken (IFStream.ofList "#a\xffb\n\n".toList) =
        some ⟨State.Bad, "a".toList, IFStream.ofList "b\n\n".toList, HeadingError⟩ ∧
      ['\n', '\n'] <:+: "a\xffb\n\n".toList) ∧
    (nextToken (IFStream.ofList "-a\xffb\n".toList) =
        some ⟨State.Bad, "a".toList, IFStream.ofList "b\n".toList, ListError⟩ ∧
      '\n' ∈ "a\xffb\n".toList) :=
  ⟨⟨by decide, ⟨"a\xffb".toList, [], rfl⟩⟩, ⟨by decide, by decide⟩⟩

/-! ### The stack of open elements (C9, C10) -/

theorem NoRepeat.push {stack : List State} {k : State} (h : NoRepeat stack)
    (hk : stack.isEmpty = true ∨ stack.head? ≠ some k) : NoRepeat (k :: stack) := by
  unfold NoRepeat at h ⊢
  rw [List.chain'_cons']
  refine ⟨?_, h⟩
  intro y hy e
  subst e
  rcases hk with hk | hk
  · cases stack with
    | nil => simp at hy
    | cons a l => simp at hk
  · exact hk (by simpa using hy)

theorem NoRepeat.pop {stack : List State} (h : NoRepeat stack) : NoRepeat stack.tail :=
  List.Chain'.tail h

theorem NoRepeat.no_pair {stack : List State} (h : NoRepeat stack) (k : State) :
    ¬ [k, k] <:+: stack := by
  intro hi
  have := List.Chain'.infix h hi
  simp [List.chain'_cons] at this

/-- The stack after a transition of the emitter. -/
theorem emit_stack (state : State) (tokenText : List Char) (stack : List State) :
    (emit state tokenText stack).1 =
      if state = State.Bold ∨ state = State.Italic then
        if stack.isEmpty ∨ stack.head? ≠ some state then state :: stack else stack.tail
      else if state = State.UnorderedList ∨ state = State.OrderedList then
        if stack.isEmpty ∨ stack.head? ≠ some state then state :: stack else stack
      else if state = State.Newline then stack.tail
      else if state = State.Text ∧ stack.isEmpty then State.Paragraph :: stack
      else stack := by
  unfold emit
  cases stack <;> cases state <;> simp <;> split_ifs <;> rfl

/-- Every transition of the emitter keeps the stack free of repeated
neighbours. -/
theorem emit_noRepeat (state : State) (tokenText : List Char) (stack : List State)
    (h : NoRepeat stack) : NoRepeat (emit state tokenText stack).1 := by
  rw [emit_stack]
  split_ifs with h1 h2 h3 h4 h5 h6
  · exact h.push (by simpa using h2)
  · exact h.pop
  · exact h.push (by simpa using h4)
  · exact h
  · exact h.pop
  · exact h.push (Or.inl h6.2)
  · exact h

theorem emitAll_noRepeat (ts : List (State × List Char)) :
    ∀ stack, NoRepeat stack → NoRepeat (emitAll stack ts).1 := by
  induction ts with
  | nil => intro stack h; exact h
  | cons t ts ih => intro stack h; exact ih _ (emit_noRepeat _ _ _ h)

/-- Every transition of the emitter keeps at most one `Paragraph` entry on
the stack. -/
theorem emit_count_paragraph (state : State) (tokenText : List Char) (stack : List State)
    (h : stack.count State.Paragraph ≤ 1) :
    (emit state tokenText stack).1.count State.Paragraph ≤ 1 := by
  have htail : stack.tail.count State.Paragraph ≤ 1 :=
    le_trans (List.Sublist.count_le (List.tail_sublist stack) _) h
  rw [emit_stack]
  split_ifs with h1 h2 h3 h4 h5 h6
  · rcases h1 with rfl | rfl <;> simpa using h
  · exact htail
  · rcases h3 with rfl | rfl <;> simpa using h
  · exact h
  · exact htail
  · have : stack = [] := by simpa using h6.2
    subst this
    simp
  · exact h

theorem emitAll_count_paragraph (ts : List (State × List Char)) :
    ∀ stack, stack.count State.Paragraph ≤ 1 →
      (emitAll stack ts).1.count State.Paragraph ≤ 1 := by
  induction ts with
  | nil => intro stack h; exact h
  | cons t ts ih => intro stack h; exact ih _ (emit_count_paragraph _ _ _ h)

/-- C9, counterexample.  On the document `a`, newline, `- b`, newline, the
token loop ends with two block entries on the stack: the list item is
opened inside the open paragraph. -/
theorem block_nesting_counterexample :
    tokens "a\n- b\n".toList =
        some [(State.Text, "a\n".toList), (State.UnorderedList, " b".toList), (State.EoF, [])] ∧
      (emitAll [] [(State.Text, "a\n".toList), (State.UnorderedList, " b".toList)]).1 =
        [State.UnorderedList, State.Paragraph] ∧
      (afterTokens "a\n- b\n".toList).map Conv.stack =
        some [State.UnorderedList, State.Paragraph] := by
  decide

/-- C9, amended.  Starting from the empty stack, after the emitter has
processed any prefix of the token sequence of any document, the stack holds
at most one `Paragraph` entry, and no list entry lies directly on a list
entry of its own kind. -/
theorem block_entries_on_stack (input : List Char) (ts pre : List (State × List Char))
    (_ht : tokens input = some ts) (_hpre : pre <+: ts) :
    (emitAll [] pre).1.count State.Paragraph ≤ 1 ∧
      ∀ k, k = State.UnorderedList ∨ k = State.OrderedList →
        ¬ [k, k] <:+: (emitAll [] pre).1 :=
  ⟨emitAll_count_paragraph pre [] (by simp),
    fun k _ => (emitAll_noRepeat pre [] List.chain'_nil).no_pair k⟩

/-- Witness for C9 (amended) on the document of the counterexample. -/
theorem block_entries_on_stack_witness :
    (emitAll [] [(State.Text, "a\n".toList), (State.UnorderedList, " b".toList)]).1.count
        State.Paragraph ≤ 1 ∧
      ∀ k, k = State.UnorderedList ∨ k = State.OrderedList →
        ¬ [k, k] <:+:
          (emitAll [] [(State.Text, "a\n".toList), (State.UnorderedList, " b".toList)]).1 :=
  block_entries_on_stack "a\n- b\n".toList
    [(State.Text, "a\n".toList), (State.UnorderedList, " b".toList), (State.EoF, [])]
    [(State.Text, "a\n".toList), (State.UnorderedList, " b".toList)]
    (by decide) ⟨[(State.EoF, [])], rfl⟩

/-- The boundary of a list item without the byte 0xFF.  For every text `t`
without newline and without the byte 0xFF and every `rest`, on the document
`-t`, newline, `rest` the call of `nextToken` returns the state
`UnorderedList` with the text `t`; when `rest` begins with a newline the
newline that ends the line is left unread (what is unread is that newline
followed by `rest`), otherwise it is consumed and what is unread is `rest`. -/
theorem list_item_boundary (t rest : List Char) (ht : '\n' ∉ t) (hff : '\xff' ∉ t) :
    ∃ tok, nextToken (IFStream.ofList ("-".toList ++ t ++ "\n".toList ++ rest)) = some tok ∧
      tok.state = State.UnorderedList ∧ tok.tokenText = t ∧
      (rest.head? = some '\n' → tok.m_file.buf = '\n' :: rest) ∧
      (rest.head? ≠ some '\n' → tok.m_file.buf = rest) := by
  have e : "-".toList ++ t ++ "\n".toList ++ rest = '-' :: (t ++ '\n' :: rest) := by simp
  have s1 : scanStart ('-' :: (t ++ '\n' :: rest)) =
      if rest.head? = some '\n' then
        ⟨State.UnorderedList, t, IFStream.ofList ('\n' :: rest), []⟩
      else ⟨State.UnorderedList, t, (IFStream.ofList rest).peek.2, []⟩ := by
    rw [scanStart_cons, if_neg (by decide), if_pos rfl, scanList_run _ _ _ t ht hff]
    simp
  refine ⟨scanStart ('-' :: (t ++ '\n' :: rest)), ?_, ?_⟩
  · rw [e]; exact nextToken_ofList _
  · rw [s1]
    by_cases h : rest.head? = some '\n'
    · simp [h]
    · simp [h]

/-- The boundary rule on an item followed by another item, and on the last
item before a blank line. -/
theorem list_item_boundary_witness :
    (∃ tok, nextToken (IFStream.ofList ("-".toList ++ " one".toList ++ "\n".toList ++
        "- two\n\n".toList)) = some tok ∧
      tok.state = State.UnorderedList ∧ tok.tokenText = " one".toList ∧
      ("- two\n\n".toList.head? = some '\n' → tok.m_file.buf = '\n' :: "- two\n\n".toList) ∧
      ("- two\n\n".toList.head? ≠ some '\n' → tok.m_file.buf = "- two\n\n".toList)) ∧
    (∃ tok, nextToken (IFStream.ofList ("-".toList ++ " two".toList ++ "\n".toList ++
        "\n".toList)) = some tok ∧
      tok.state = State.UnorderedList ∧ tok.tokenText = " two".toList ∧
      ("\n".toList.head? = some '\n' → tok.m_file.buf = '\n' :: "\n".toList) ∧
      ("\n".toList.head? ≠ some '\n' → tok.m_file.buf = "\n".toList)) :=
  ⟨list_item_boundary " one".toList "- two\n\n".toList (by decide) (by decide),
    list_item_boundary " two".toList "\n".toList (by decide) (by decide)⟩

/-- C11, the code at a failing input.  The text `a`, byte 0xFF, `b` holds no
newline, but on the document `-t`, newline, `rest` the call returns the
state `Bad` with the text `a` and leaves `b`, the newline and `rest` unread:
the byte is taken for the end of the file. -/
theorem list_item_stops_at_byte_ff :
    nextToken (IFStream.ofList ("-".toList ++ "a\xffb".toList ++ "\n".toList ++
        "rest".toList)) =
      some ⟨State.Bad, "a".toList, IFStream.ofList "b\nrest".toList, ListError⟩ := by
  decide

/-- The two list states scan alike: same text, same file, same diagnostics,
and corresponding states. -/
theorem scanList_kinds (err : List Char) (r : List Char) :
    ∀ text,
      (scanList State.OrderedList err text r).tokenText =
        (scanList State.UnorderedList err text r).tokenText ∧
      (scanList State.OrderedList err text r).m_file =
        (scanList State.UnorderedList err text r).m_file ∧
      (scanList State.OrderedList err text r).cerr =
        (scanList State.UnorderedList err text r).cerr ∧
      (((scanList State.OrderedList err text r).state = State.OrderedList ∧
          (scanList State.UnorderedList err text r).state = State.UnorderedList) ∨
        ((scanList State.OrderedList err text r).state = State.Bad ∧
          (scanList State.UnorderedList err text r).state = State.Bad)) := by
  induction r with
  | nil => intro text; simp [scanList]
  | cons c r ih =>
    intro text
    rw [scanList, scanList]
    split_ifs
    · simp
    · simp
    · simp
    · exact ih _

/-- The text of a list token is what was accumulated followed by a prefix of
the unread characters. -/
theorem scanList_text (st : State) (err : List Char) (r : List Char) :
    ∀ text, ∃ more, (scanList st err text r).tokenText = text ++ more ∧ more <+: r := by
  induction r with
  | nil => intro text; exact ⟨[], by simp [scanList], List.prefix_refl _⟩
  | cons c r ih =>
    intro text
    rw [scanList]
    split_ifs
    · exact ⟨[], by simp, List.nil_prefix⟩
    · exact ⟨[], by simp, List.nil_prefix⟩
    · exact ⟨[], by simp, List.nil_prefix⟩
    · obtain ⟨more, h1, h2⟩ := ih (text ++ [c])
      exact ⟨c :: more, by simp [h1], by simpa using h2⟩

/-- C12. For every decimal digit `d` and every `s`, the call of `nextToken`
on `d`, `.`, `s` and the call on `-`, `s` return the same text and leave the
same file (hence the same unread characters); the text is a prefix of `s`
and what is unread a suffix of `s`, so the digit and the dot are in neither;
and the states correspond: `OrderedList` where the other is
`UnorderedList`, `Bad` where the other is `Bad`. -/
theorem ordered_item_like_unordered (d : Char) (hd : d.isDigit = true) (s : List Char) :
    ∃ o u, nextToken (IFStream.ofList (d :: '.' :: s)) = some o ∧
      nextToken (IFStream.ofList ('-' :: s)) = some u ∧
      o.tokenText = u.tokenText ∧ o.m_file = u.m_file ∧
      o.tokenText <+: s ∧ o.m_file.buf <:+ s ∧
      ((o.state = State.OrderedList ∧ u.state = State.UnorderedList) ∨
        (o.state = State.Bad ∧ u.state = State.Bad)) := by
  have d1 : d ≠ '#' := by rintro rfl; exact absurd hd (by decide)
  have d2 : d ≠ '-' := by rintro rfl; exact absurd hd (by decide)
  have so : scanStart (d :: '.' :: s) = scanList State.OrderedList [] [] s := by
    rw [scanStart_cons, if_neg d1, if_neg d2, if_pos ⟨hd, rfl⟩]
    rfl
  have su : scanStart ('-' :: s) = scanList State.UnorderedList [] [] s := by
    rw [scanStart_cons, if_neg (by decide), if_pos rfl]
  obtain ⟨k1, k2, -, k4⟩ := scanList_kinds [] s []
  obtain ⟨more, m1, m2⟩ := scanList_text State.OrderedList [] s []
  refine ⟨_, _, nextToken_ofList _, nextToken_ofList _, ?_⟩
  rw [so, su]
  refine ⟨k1, k2, ?_, (scanList_leftOf _ _ s []).2, k4⟩
  rw [m1]
  simpa using m2

/-- Witness for C12 with the digit `1`. -/
theorem ordered_item_like_unordered_witness :
    ∃ o u, nextToken (IFStream.ofList ('1' :: '.' :: " one\n2. two\n".toList)) = some o ∧
      nextToken (IFStream.ofList ('-' :: " one\n2. two\n".toList)) = some u ∧
      o.tokenText = u.tokenText ∧ o.m_file = u.m_file ∧
      o.tokenText <+: " one\n2. two\n".toList ∧ o.m_file.buf <:+ " one\n2. two\n".toList ∧
      ((o.state = State.OrderedList ∧ u.state = State.UnorderedList) ∨
        (o.state = State.Bad ∧ u.state = State.Bad)) :=
  ordered_item_like_unordered '1' (by decide) " one\n2. two\n".toList


/-! ### Newlines in `Text` tokens (C13) -/

theorem scanHeading_state (err : List Char) (r : List Char) :
    ∀ text, (scanHeading err text r).state ≠ State.Text := by
  induction r with
  | nil => intro text; simp [scanHeading]
  | cons c r ih =>
    intro text
    rw [scanHeading]
    split_ifs
    · simp
    · simp
    · exact ih _

theorem scanList_state (st : State) (hst : st ≠ State.Text) (err : List Char)
    (r : List Char) : ∀ text, (scanList st err text r).state ≠ State.Text := by
  induction r with
  | nil => intro text; simp [scanList]
  | cons c r ih =>
    intro text
    rw [scanList]
    split_ifs
    · simpa using hst
    · simpa using hst
    · simp
    · exact ih _

/-- The text of a `Text` token is what was accumulated, then characters other
than newline, then possibly one newline. -/
theorem scanText_shape (err : List Char) (r : List Char) :
    ∀ text, ∃ mid opt, (scanText err text r).tokenText = text ++ mid ++ opt ∧
      '\n' ∉ mid ∧ (opt = [] ∨ opt = ['\n']) := by
  induction r with
  | nil => intro text; exact ⟨[], [], by simp [scanText], by simp, Or.inl rfl⟩
  | cons c r ih =>
    intro text
    rw [scanText]
    split_ifs with h1 h2 h3 h4
    · exact ⟨[], [], by simp, by simp, Or.inl rfl⟩
    · exact ⟨[], ['\n'], by simp, by simp, Or.inr rfl⟩
    · exact ⟨[], [], by simp, by simp, Or.inl rfl⟩
    · exact ⟨[], [], by simp, by simp, Or.inl rfl⟩
    · obtain ⟨mid, opt, e, hm, ho⟩ := ih (text ++ [c])
      refine ⟨c :: mid, opt, by simp [e], ?_, ho⟩
      simp only [List.mem_cons, not_or]
      exact ⟨Ne.symm h1, hm⟩

theorem newline_last (mid : List Char) (hm : '\n' ∉ mid) :
    ∀ pre post : List Char, mid ++ ['\n'] = pre ++ '\n' :: post → post = [] := by
  induction mid with
  | nil =>
    intro pre post h
    cases pre with
    | nil => simpa using h.symm
    | cons a p => simp at h
  | cons a m ih =>
    intro pre post h
    cases pre with
    | nil =>
      simp at h
      exact absurd h.1 (fun e => hm (e ▸ List.mem_cons_self _ _))
    | cons b p =>
      simp at h
      exact ih (fun hmem => hm (List.mem_cons_of_mem _ hmem)) p post h.2

/-- C13, counterexample.  On the document newline, `b` the call returns a
`Text` token whose text begins with the newline: the start state takes the
single newline as the first character of the text. -/
theorem text_newline_counterexample :
    nextToken (IFStream.ofList "\nb".toList) =
        some ⟨State.Text, "\nb".toList, IFStream.failed, []⟩ ∧
      ¬ (∀ pre post : List Char, "\nb".toList = pre ++ '\n' :: post → post = []) := by
  refine ⟨rfl, ?_⟩
  intro h
  have := h [] ['b'] rfl
  simp at this

/-- C13, amended.  For every document on which `nextToken` returns a `Text`
token, a newline occurs in the token text only as its first or as its last
character. -/
theorem text_newline_first_or_last (s : List Char) (tok : Token)
    (h : nextToken (IFStream.ofList s) = some tok) (hs : tok.state = State.Text) :
    ∀ pre post : List Char, tok.tokenText = pre ++ '\n' :: post → pre = [] ∨ post = [] := by
  rw [nextToken_ofList] at h
  have ht : tok = scanStart s := (Option.some.inj h).symm
  subst ht
  cases s with
  | nil => simp [scanStart] at hs
  | cons c r =>
    rw [scanStart_cons] at hs ⊢
    split_ifs at hs ⊢ with h1 h2 h3 h4 h5 h6
    · exact absurd hs (scanHeading_state _ _ _)
    · exact absurd hs (scanList_state _ (by decide) _ _ _)
    · exact absurd hs (scanList_state _ (by decide) _ _ _)
    · obtain ⟨mid, opt, e, hm, ho⟩ := scanText_shape [] r [c]
      intro pre post hpp
      rw [e] at hpp
      cases pre with
      | nil => exact Or.inl rfl
      | cons b p =>
        right
        simp only [List.cons_append, List.nil_append, List.cons.injEq] at hpp
        obtain ⟨-, hpp⟩ := hpp
        rcases ho with rfl | rfl
        · have : '\n' ∈ mid := by
            have hmem : '\n' ∈ p ++ '\n' :: post := by simp
            rw [← hpp] at hmem
            simpa using hmem
          exact absurd this hm
        · exact newline_last mid hm p post hpp

/-- Witness for C13 (amended) on the document of the counterexample. -/
theorem text_newline_first_or_last_witness :
    ([] : List Char) = [] ∨ "b".toList = [] :=
  text_newline_first_or_last "\nb".toList ⟨State.Text, "\nb".toList, IFStream.failed, []⟩
    rfl rfl [] "b".toList rfl

/-! ### Emphasis markers (C14) -/

/-- C14. On a document that begins with `**` the call of `nextToken` returns
`Bold` with empty text and consumes exactly these two characters; on a
document that begins with `*` not followed by `*` (also when nothing follows)
it returns `Italic` with empty text and consumes exactly the one `*`.  The
document `***x` is scanned as `Bold`, `Italic`, `Text x`. -/
theorem emphasis_marker :
    (∀ r : List Char, nextToken (IFStream.ofList ('*' :: '*' :: r)) =
      some ⟨State.Bold, [], IFStream.ofList r, []⟩) ∧
    (∀ r : List Char, r.head? ≠ some '*' →
      ∃ tok, nextToken (IFStream.ofList ('*' :: r)) = some tok ∧
        tok.state = State.Italic ∧ tok.tokenText = [] ∧ tok.m_file.buf = r) ∧
    tokens "***x".toList =
      some [(State.Bold, []), (State.Italic, []), (State.Text, "x".toList)] := by
  refine ⟨?_, ?_, by decide⟩
  · intro r
    rw [nextToken_ofList, scanStart_cons]
    simp
  · intro r hr
    refine ⟨_, nextToken_ofList _, ?_⟩
    rw [scanStart_cons, if_neg (by decide), if_neg (by decide),
      if_neg (fun h => absurd h.1 (by decide)), if_neg (fun h => absurd h.1 (by decide)),
      if_pos rfl, if_neg hr]
    simp

/-- Witness for C14: a `*` before a letter and a `*` at the end of the file. -/
theorem emphasis_marker_witness :
    (∃ tok, nextToken (IFStream.ofList ('*' :: "a*".toList)) = some tok ∧
      tok.state = State.Italic ∧ tok.tokenText = [] ∧ tok.m_file.buf = "a*".toList) ∧
    (∃ tok, nextToken (IFStream.ofList ('*' :: [])) = some tok ∧
      tok.state = State.Italic ∧ tok.tokenText = [] ∧ tok.m_file.buf = []) :=
  ⟨emphasis_marker.2.1 "a*".toList (by decide), emphasis_marker.2.1 [] (by decide)⟩


/-! ### Tokens that write nothing (C15) -/

/-- C15. For every stack and every output written so far, the transition of
the emitter on a `Bad` token, on an `EoF` token, and on a blank-line token
when the stack is empty, leaves the stack as it is and adds nothing to
`std::cout`; the diagnostic for a `Bad` token goes to `std::cerr`.  The same
holds for the whole pass of the token loop, the scanner's own diagnostic
included: when the token returned is of one of these kinds, stack and
`std::cout` are the same after the pass. -/
theorem diagnostics_not_in_html :
    (∀ (stack : List State) (cout : List Frag) (txt : List Char),
      ((emit State.Bad txt stack).1 = stack ∧ cout ++ (emit State.Bad txt stack).2.1 = cout ∧
        (emit State.Bad txt stack).2.2 = "Error: Bad token: ".toList ++ txt ++ "\n".toList) ∧
      ((emit State.EoF txt stack).1 = stack ∧ cout ++ (emit State.EoF txt stack).2.1 = cout) ∧
      ((emit State.Newline txt []).1 = [] ∧ cout ++ (emit State.Newline txt []).2.1 = cout)) ∧
    (∀ (c : Conv) (t : Token), nextToken c.m_file = some t →
      (t.state = State.Bad ∨ t.state = State.EoF ∨ (t.state = State.Newline ∧ c.stack = [])) →
      ∃ c', tokenStep c = some c' ∧ c'.stack = c.stack ∧ c'.cout = c.cout) := by
  constructor
  · intro stack cout txt
    simp [emit, BadTokenError]
  · intro c t ht hk
    refine ⟨_, by rw [tokenStep, ht]; rfl, ?_⟩
    rcases hk with h | h | ⟨h, hs⟩
    · simp [emit, h]
    · simp [emit, h]
    · simp [emit, h, hs]

/-- Witness for C15: the pass of the token loop on the heading without end
`#x`, whose token is `Bad`. -/
theorem diagnostics_not_in_html_witness :
    ∃ c', tokenStep (Conv.init (IFStream.ofList "#x".toList)) = some c' ∧
      c'.stack = (Conv.init (IFStream.ofList "#x".toList)).stack ∧
      c'.cout = (Conv.init (IFStream.ofList "#x".toList)).cout :=
  diagnostics_not_in_html.2 (Conv.init (IFStream.ofList "#x".toList))
    ⟨State.Bad, "x".toList, IFStream.failed, HeadingError⟩ rfl (Or.inl rfl)

/-! ### Document framing (C16) -/

/-- C16. For every document the token loop returns, what it has written
begins with the prologue, and the complete output of `main` is the prologue,
then the body written by the token loop, then the closing tags written by
the drain of the stack, then the epilogue.  For the empty document the
output is the prologue followed by the epilogue. -/
theorem document_framing (input : List Char) :
    (∃ c body, afterTokens input = some c ∧ c.cout = Frag.HTMLBeforeBody :: body ∧
      html input = some ("<html>\n<body>\n".toList ++ (render body ++ render (drain c.stack)) ++
        "</body>\n</html>\n".toList)) ∧
    html [] = some ("<html>\n<body>\n".toList ++ "</body>\n</html>\n".toList) := by
  refine ⟨?_, by decide⟩
  obtain ⟨ts, hts, -⟩ := tokens_total input
  have h := afterTokens_eq input
  rw [hts] at h
  cases hc : afterTokens input with
  | none => rw [hc] at h; simp at h
  | some c =>
    rw [hc] at h
    simp only [Option.map_some', Option.some.injEq, Prod.mk.injEq] at h
    refine ⟨c, (emitAll [] ts).2, rfl, h.2, ?_⟩
    have hm : html input = some (render (c.cout ++ drain c.stack ++ [Frag.HTMLAfterBody])) := by
      unfold afterTokens at hc
      unfold html main mainFuel
      rw [hc]
      rfl
    rw [hm, h.2]
    simp [render, Frag.chars]

/-! ### List transitions (C17) -/

/-- C17. From any stack whose top is not `UnorderedList` (the empty stack
included), one or more consecutive `UnorderedList` tokens write `<ul>` and a
newline once, then `<li>t</li>` and a newline for each token text `t` in
order, and leave the stack with exactly one `UnorderedList` entry pushed;
likewise for `OrderedList` tokens with `<ol>`. -/
theorem list_items_transition (kind : State)
    (hk : kind = State.UnorderedList ∨ kind = State.OrderedList) (stack : List State)
    (htop : stack.head? ≠ some kind) (texts : List (List Char)) (hne : texts ≠ []) :
    (emitAll stack (texts.map fun t => (kind, t))).1 = kind :: stack ∧
    (emitAll stack (texts.map fun t => (kind, t))).2 =
      (if kind = State.UnorderedList then Frag.UlOpen else Frag.OlOpen) ::
        (texts.map fun t => [Frag.LiOpen, Frag.text t, Frag.LiClose]).flatten ∧
    render (emitAll stack (texts.map fun t => (kind, t))).2 =
      (if kind = State.UnorderedList then "<ul>\n".toList else "<ol>\n".toList) ++
        (texts.map fun t => "<li>".toList ++ t ++ "</li>\n".toList).flatten := by
  cases texts with
  | nil => exact absurd rfl hne
  | cons t texts =>
    have h1 : emit kind t stack =
        (kind :: stack,
          [if kind = State.UnorderedList then Frag.UlOpen else Frag.OlOpen,
            Frag.LiOpen, Frag.text t, Frag.LiClose], []) := by
      rcases hk with rfl | rfl <;> simp [emit, htop]
    have h2 : emitAll stack ((t :: texts).map fun t => (kind, t)) =
        (kind :: stack,
          (if kind = State.UnorderedList then Frag.UlOpen else Frag.OlOpen) ::
            ((t :: texts).map liFrags).flatten) := by
      rw [List.map_cons, emitAll, h1]
      simp only
      rw [emitAll_items kind hk stack texts]
      simp [liFrags]
    have h3 : ((t :: texts).map fun t => [Frag.LiOpen, Frag.text t, Frag.LiClose]) =
        (t :: texts).map liFrags := rfl
    refine ⟨by rw [h2], by rw [h2, h3], ?_⟩
    rw [h2]
    have hr := render_liFrags (t :: texts)
    have hcons : ∀ (f : Frag) (l : List Frag), render (f :: l) = f.chars ++ render l := by
      intro f l
      simp [render]
    show render (_ :: _) = _
    rw [hcons, hr]
    rcases hk with rfl | rfl <;> simp [Frag.chars]

/-- Witness for C17: two ordered items above an open paragraph. -/
theorem list_items_transition_witness :
    (emitAll [State.Paragraph] (["a".toList, "b".toList].map
        fun t => (State.OrderedList, t))).1 = [State.OrderedList, State.Paragraph] ∧
    render (emitAll [State.Paragraph] (["a".toList, "b".toList].map
        fun t => (State.OrderedList, t))).2 =
      (if State.OrderedList = State.UnorderedList then "<ul>\n".toList else "<ol>\n".toList) ++
        (["a".toList, "b".toList].map
          fun t => "<li>".toList ++ t ++ "</li>\n".toList).flatten :=
  have h := list_items_transition State.OrderedList (Or.inr rfl) [State.Paragraph]
    (by decide) ["a".toList, "b".toList] (by decide)
  ⟨h.1, h.2.2⟩


/-! ### Block tags are well nested (C18) -/

theorem nest_append (a b : List Frag) :
    ∀ pending, nest pending (a ++ b) = (nest pending a).bind fun p => nest p b := by
  induction a with
  | nil => intro pending; simp [nest]
  | cons f a ih =>
    intro pending
    simp only [List.cons_append, nest]
    cases f.opens with
    | some k => exact ih _
    | none =>
      cases f.closes with
      | some k =>
        simp only
        split_ifs
        · exact ih _
        · rfl
      | none => exact ih _

/-- A transition of the emitter writes block tags that take the block
entries of the stack before it to those after it. -/
theorem emit_nest (state : State) (tokenText : List Char) (stack : List State) :
    nest (blocks stack) (emit state tokenText stack).2.1 =
      some (blocks (emit state tokenText stack).1) := by
  rcases stack with _ | ⟨a, l⟩
  · cases state <;> simp [emit, nest, blocks, Frag.opens, Frag.closes]
  · cases state <;> cases a <;> simp [emit, nest, blocks, Frag.opens, Frag.closes]

theorem emitAll_nest (ts : List (State × List Char)) :
    ∀ stack, nest (blocks stack) (emitAll stack ts).2 = some (blocks (emitAll stack ts).1) := by
  induction ts with
  | nil => intro stack; rfl
  | cons t ts ih =>
    intro stack
    simp only [emitAll]
    rw [nest_append, emit_nest]
    exact ih _

/-- The drain of the stack closes the open block elements, innermost first. -/
theorem drain_nest (stack : List State) : nest (blocks stack) (drain stack) = some [] := by
  induction stack with
  | nil => rfl
  | cons a l ih =>
    cases a <;> simpa [drain, nest, blocks, Frag.opens, Frag.closes] using ih


theorem opens_closes (f : Frag) (k : State) (h : f.opens = some k) : f.closes = none := by
  cases f <;> simp_all [Frag.opens, Frag.closes]

/-- Along a well-nested reading, the opening tags of a kind plus the elements
of that kind open at the start equal its closing tags plus those open at the
end. -/
theorem nest_count (k : State) (out : List Frag) :
    ∀ pending pending', nest pending out = some pending' →
      out.countP (fun f => f.opens = some k) + pending.count k =
        out.countP (fun f => f.closes = some k) + pending'.count k := by
  induction out with
  | nil =>
    intro pending pending' h
    simp only [nest, Option.some.injEq] at h
    subst h
    simp
  | cons f fs ih =>
    intro pending pending' h
    rw [nest] at h
    rw [List.countP_cons, List.countP_cons]
    cases ho : f.opens with
    | some k' =>
      have hc := opens_closes f k' ho
      rw [ho] at h
      have := ih _ _ h
      simp only [hc, List.count_cons] at this ⊢
      by_cases e : k' = k
      · simp [e] at this ⊢; omega
      · simp [e] at this ⊢; omega
    | none =>
      rw [ho] at h
      cases hc : f.closes with
      | some k' =>
        rw [hc] at h
        simp only at h
        split_ifs at h with htop
        cases pending with
        | nil => simp at htop
        | cons a l =>
          simp only [List.head?_cons, Option.some.injEq] at htop
          subst htop
          have := ih _ _ h
          simp only [List.tail_cons] at this
          simp only [List.count_cons]
          by_cases e : a = k
          · simp [e] at this ⊢; omega
          · simp [e] at this ⊢; omega
      | none =>
        rw [hc] at h
        have := ih _ _ h
        simpa using this

/-- The stack and the output after the token loop, and the output of `main`,
in terms of the token sequence. -/
theorem main_cout (input : List Char) :
    ∃ ts c, tokens input = some ts ∧ main input = some c ∧
      c.cout = [Frag.HTMLBeforeBody] ++ (emitAll [] ts).2 ++ drain (emitAll [] ts).1 ++
        [Frag.HTMLAfterBody] := by
  obtain ⟨ts, hts, -⟩ := tokens_total input
  have h := afterTokens_eq input
  rw [hts] at h
  cases hc : afterTokens input with
  | none => rw [hc] at h; simp at h
  | some c0 =>
    rw [hc] at h
    simp only [Option.map_some', Option.some.injEq, Prod.mk.injEq] at h
    refine ⟨ts, ⟨c0.m_file, [], c0.cout ++ drain c0.stack ++ [Frag.HTMLAfterBody], c0.cerr⟩,
      hts, ?_, ?_⟩
    · unfold afterTokens at hc
      unfold main mainFuel
      rw [hc]
      rfl
    · simp only [h.1, h.2]

/-- C18. For every document `main` returns, and the block tags it has
written, read in order as brackets, are well nested: every closing tag of
`<p>`, `<ul>` or `<ol>` closes the innermost block element still open, and
none is open at the end.  In particular each of the three tags is opened as
many times as it is closed. -/
theorem block_tags_well_nested (input : List Char) :
    ∃ c, main input = some c ∧ nest [] c.cout = some [] ∧
      c.cout.count Frag.ParagraphOpen = c.cout.count Frag.ParagraphClose ∧
      c.cout.count Frag.UlOpen = c.cout.count Frag.UlClose ∧
      c.cout.count Frag.OlOpen = c.cout.count Frag.OlClose := by
  obtain ⟨ts, c, -, hm, hc⟩ := main_cout input
  have hn : nest [] c.cout = some [] := by
    rw [hc, nest_append, nest_append, nest_append]
    have h1 : nest [] [Frag.HTMLBeforeBody] = some (blocks []) := rfl
    rw [h1]
    simp only [Option.some_bind, emitAll_nest, drain_nest]
    rfl
  have hcount : ∀ (o cl : Frag) (k : State),
      (∀ f : Frag, f.opens = some k ↔ f = o) → (∀ f : Frag, f.closes = some k ↔ f = cl) →
      c.cout.count o = c.cout.count cl := by
    intro o cl k ho hcl
    have := nest_count k c.cout [] [] hn
    simp only [List.count_nil, Nat.add_zero] at this
    have e1 : c.cout.countP (fun f => f.opens = some k) = c.cout.count o := by
      rw [List.count]
      apply List.countP_congr
      intro f _
      simp [ho f]
    have e2 : c.cout.countP (fun f => f.closes = some k) = c.cout.count cl := by
      rw [List.count]
      apply List.countP_congr
      intro f _
      simp [hcl f]
    rw [← e1, ← e2]
    exact this
  refine ⟨c, hm, hn, ?_, ?_, ?_⟩
  · exact hcount _ _ State.Paragraph (by intro f; cases f <;> simp [Frag.opens])
      (by intro f; cases f <;> simp [Frag.closes])
  · exact hcount _ _ State.UnorderedList (by intro f; cases f <;> simp [Frag.opens])
      (by intro f; cases f <;> simp [Frag.closes])
  · exact hcount _ _ State.OrderedList (by intro f; cases f <;> simp [Frag.opens])
      (by intro f; cases f <;> simp [Frag.closes])


/-- The bracket reading rejects a closing tag that does not match the
innermost open element, and reports an element left open. -/
theorem nest_rejects :
    nest [] [Frag.UlOpen, Frag.ParagraphOpen, Frag.UlClose] = none ∧
      nest [] [Frag.UlOpen] = some [State.UnorderedList] := by
  decide

/-! ### Stack invariants for arbitrary token sequences (C19, C20) -/

/-- Every transition of the emitter keeps the stack within the five kinds
that are ever pushed. -/
theorem emit_kinds (state : State) (tokenText : List Char) (stack : List State)
    (h : ∀ k ∈ stack, k = State.Bold ∨ k = State.Italic ∨ k = State.Paragraph ∨
      k = State.UnorderedList ∨ k = State.OrderedList) :
    ∀ k ∈ (emit state tokenText stack).1, k = State.Bold ∨ k = State.Italic ∨
      k = State.Paragraph ∨ k = State.UnorderedList ∨ k = State.OrderedList := by
  have htail : ∀ k ∈ stack.tail, k = State.Bold ∨ k = State.Italic ∨ k = State.Paragraph ∨
      k = State.UnorderedList ∨ k = State.OrderedList :=
    fun k hk => h k (List.mem_of_mem_tail hk)
  rw [emit_stack]
  split_ifs with h1 h2 h3 h4 h5 h6
  · intro k hk
    rcases List.mem_cons.mp hk with rfl | hk
    · rcases h1 with e | e <;> simp [e]
    · exact h k hk
  · exact htail
  · intro k hk
    rcases List.mem_cons.mp hk with rfl | hk
    · rcases h3 with e | e <;> simp [e]
    · exact h k hk
  · exact h
  · exact htail
  · intro k hk
    rcases List.mem_cons.mp hk with rfl | hk
    · simp
    · exact h k hk
  · exact h

theorem emitAll_kinds (ts : List (State × List Char)) :
    ∀ stack, (∀ k ∈ stack, k = State.Bold ∨ k = State.Italic ∨ k = State.Paragraph ∨
        k = State.UnorderedList ∨ k = State.OrderedList) →
      ∀ k ∈ (emitAll stack ts).1, k = State.Bold ∨ k = State.Italic ∨
        k = State.Paragraph ∨ k = State.UnorderedList ∨ k = State.OrderedList := by
  induction ts with
  | nil => intro stack h; exact h
  | cons t ts ih => intro stack h; exact ih _ (emit_kinds _ _ _ h)

/-- A transition of the emitter that pushes `k` finds the stack empty or
with a top other than `k`, and pushes `Paragraph` only on the empty stack. -/
theorem emit_push (state : State) (tokenText : List Char) (stack : List State) (k : State)
    (h : (emit state tokenText stack).1 = k :: stack) :
    (stack = [] ∨ stack.head? ≠ some k) ∧ (k = State.Paragraph → stack = []) := by
  have hlen : ∀ l : List State, l.tail ≠ k :: l := by
    intro l e
    have := congrArg List.length e
    simp at this
  have hself : stack ≠ k :: stack := by
    intro e
    have := congrArg List.length e
    simp at this
  rw [emit_stack] at h
  split_ifs at h with h1 h2 h3 h4 h5 h6
  · simp only [List.cons.injEq, and_true] at h
    subst h
    refine ⟨?_, ?_⟩
    · rcases h2 with e | e
      · exact Or.inl (by simpa using e)
      · exact Or.inr e
    · intro e; rcases h1 with e' | e' <;> simp [e'] at e
  · exact absurd h (hlen _)
  · simp only [List.cons.injEq, and_true] at h
    subst h
    refine ⟨?_, ?_⟩
    · rcases h4 with e | e
      · exact Or.inl (by simpa using e)
      · exact Or.inr e
    · intro e; rcases h3 with e' | e' <;> simp [e'] at e
  · exact absurd h hself
  · exact absurd h (hlen _)
  · have : stack = [] := by simpa using h6.2
    exact ⟨Or.inl this, fun _ => this⟩
  · exact absurd h hself

/-- C19. Starting from the empty stack, after the emitter has processed any
sequence of tokens, the stack never holds two equal entries next to each
other and contains only the kinds `Bold`, `Italic`, `Paragraph`,
`UnorderedList` and `OrderedList`; and every transition that pushes an entry
finds the stack empty or with a top that differs from the pushed kind. -/
theorem stack_no_repeat_and_kinds (ts : List (State × List Char)) :
    (∀ k, ¬ [k, k] <:+: (emitAll [] ts).1) ∧
    (∀ k ∈ (emitAll [] ts).1, k = State.Bold ∨ k = State.Italic ∨ k = State.Paragraph ∨
      k = State.UnorderedList ∨ k = State.OrderedList) ∧
    (∀ (state : State) (tokenText : List Char) (stack : List State) (k : State),
      (emit state tokenText stack).1 = k :: stack → stack = [] ∨ stack.head? ≠ some k) :=
  ⟨fun k => (emitAll_noRepeat ts [] List.chain'_nil).no_pair k,
    emitAll_kinds ts [] (by simp),
    fun state tokenText stack k h => (emit_push state tokenText stack k h).1⟩

/-- Every transition of the emitter keeps `Paragraph` out of all positions
but the bottom of the stack. -/
theorem emit_paragraph_bottom (state : State) (tokenText : List Char) (stack : List State)
    (h : State.Paragraph ∉ stack.dropLast) :
    State.Paragraph ∉ (emit state tokenText stack).1.dropLast := by
  have htail : State.Paragraph ∉ stack.tail.dropLast := by
    rcases stack with _ | ⟨a, _ | ⟨b, l⟩⟩
    · simp
    · simp
    · intro hm
      exact h (by simp only [List.tail_cons] at hm; simp [List.dropLast, hm])
  have hpush : ∀ k, k ≠ State.Paragraph → State.Paragraph ∉ (k :: stack).dropLast := by
    intro k hk
    rcases stack with _ | ⟨a, l⟩
    · simp
    · intro hm
      simp only [List.dropLast_cons₂, List.mem_cons] at hm
      rcases hm with e | hm
      · exact hk e.symm
      · exact h hm
  rw [emit_stack]
  split_ifs with h1 h2 h3 h4 h5 h6
  · exact hpush _ (by rcases h1 with e | e <;> simp [e])
  · exact htail
  · exact hpush _ (by rcases h3 with e | e <;> simp [e])
  · exact h
  · exact htail
  · have : stack = [] := by simpa using h6.2
    subst this
    simp
  · exact h

theorem emitAll_paragraph_bottom (ts : List (State × List Char)) :
    ∀ stack, State.Paragraph ∉ stack.dropLast →
      State.Paragraph ∉ (emitAll stack ts).1.dropLast := by
  induction ts with
  | nil => intro stack h; exact h
  | cons t ts ih => intro stack h; exact ih _ (emit_paragraph_bottom _ _ _ h)

/-- The opening tag of a paragraph is written only on the empty stack. -/
theorem emit_paragraphOpen (state : State) (tokenText : List Char) (stack : List State)
    (h : Frag.ParagraphOpen ∈ (emit state tokenText stack).2.1) : stack = [] := by
  rcases stack with _ | ⟨a, l⟩
  · rfl
  · exfalso
    revert h
    cases state <;> simp [emit] <;> split_ifs <;> simp

/-- The place of `Paragraph` on the stack.  A transition of the emitter
pushes `Paragraph`, and writes `<p>`, only when the stack is empty.  Hence,
starting from the empty stack, after any sequence of tokens a `Paragraph`
entry can only be the bottom entry of the stack, and the stack holds at most
one `Paragraph`. -/
theorem paragraph_only_at_bottom (ts : List (State × List Char)) :
    (∀ (state : State) (tokenText : List Char) (stack : List State),
      (emit state tokenText stack).1 = State.Paragraph :: stack → stack = []) ∧
    (∀ (state : State) (tokenText : List Char) (stack : List State),
      Frag.ParagraphOpen ∈ (emit state tokenText stack).2.1 → stack = []) ∧
    State.Paragraph ∉ (emitAll [] ts).1.dropLast ∧
    (emitAll [] ts).1.count State.Paragraph ≤ 1 :=
  ⟨fun state tokenText stack h => (emit_push state tokenText stack _ h).2 rfl,
    emit_paragraphOpen,
    emitAll_paragraph_bottom ts [] (by simp),
    emitAll_count_paragraph ts [] (by simp)⟩


/-- Witness for C19: after a paragraph text, a list item and an emphasis
marker the stack holds three different neighbours, and the list item was
pushed on a top of another kind. -/
theorem stack_no_repeat_and_kinds_witness :
    ¬ [State.Italic, State.Italic] <:+: (emitAll [] [(State.Text, "a".toList),
        (State.UnorderedList, "b".toList), (State.Italic, [])]).1 ∧
      ([State.Paragraph] = [] ∨ [State.Paragraph].head? ≠ some State.UnorderedList) :=
  ⟨(stack_no_repeat_and_kinds [(State.Text, "a".toList), (State.UnorderedList, "b".toList),
      (State.Italic, [])]).1 State.Italic,
    (stack_no_repeat_and_kinds []).2.2 State.UnorderedList "b".toList [State.Paragraph]
      State.UnorderedList rfl⟩

/-- A `Text` token on the empty stack pushes the `Paragraph`, which stays at
the bottom under a list item. -/
theorem paragraph_only_at_bottom_witness :
    ([] : List State) = [] ∧
      State.Paragraph ∉ (emitAll [] [(State.Text, "a".toList),
        (State.UnorderedList, "b".toList)]).1.dropLast :=
  ⟨(paragraph_only_at_bottom []).1 State.Text "a".toList [] rfl,
    (paragraph_only_at_bottom [(State.Text, "a".toList),
      (State.UnorderedList, "b".toList)]).2.2.1⟩


/-- C20, the code at a failing input.  On the document `**a`, blank line,
`b`, blank line, the first blank line pops the `Bold` entry without writing
`</strong>`, so the stack is empty when `Text b` arrives and `<p>` is
written while the `<strong>` element is still open in the output: the
writes are `<strong>`, `a`, `<p>`, `b`, `</p>`, and no `</strong>`. -/
theorem paragraph_inside_open_strong :
    tokens "**a\n\nb\n\n".toList =
        some [(State.Bold, []), (State.Text, "a".toList), (State.Newline, []),
          (State.Text, "b".toList), (State.Newline, []), (State.EoF, [])] ∧
      (emitAll [] [(State.Bold, []), (State.Text, "a".toList), (State.Newline, [])]) =
        ([], [Frag.StrongOpen, Frag.text "a".toList]) ∧
      (main "**a\n\nb\n\n".toList).map Conv.cout =
        some [Frag.HTMLBeforeBody, Frag.StrongOpen, Frag.text "a".toList,
          Frag.ParagraphOpen, Frag.text "b".toList, Frag.ParagraphClose,
          Frag.HTMLAfterBody] ∧
      html "**a\n\nb\n\n".toList =
        some "<html>\n<body>\n<strong>a<p>\nb\n</p>\n</body>\n</html>\n".toList := by
  decide

end Markdown
